import Mathlib

/-!
Verification of the OpenAPI TypeScript generator (src/openApiGenerator.ts).

The generator's schema values are parsed YAML, i.e. dynamically typed
JSON-like data.  `Js` is the shallow embedding of those values; numbers are
modelled as integers (IEEE-754 specifics are out of scope for every property
verified here).  JavaScript operations that throw `TypeError` on unexpected
dynamic shapes are modelled with `Except String`.  Object iteration order in
JavaScript is insertion order, modelled by the order of the field list; field
keys are assumed unique, as produced by the YAML parser.
-/

namespace OpenApiGen

inductive Js where
  | null
  | bool (b : Bool)
  | num (n : Int)
  | str (s : String)
  | arr (elems : List Js)
  | obj (fields : List (String × Js))
deriving Repr

/-- Field access on an object; `none` models JavaScript `undefined`. -/
def lookupField : List (String × Js) → String → Option Js
  | [], _ => none
  | (k2, v) :: rest, k => if k2 = k then some v else lookupField rest k

def Js.isNull : Js → Bool
  | .null => true
  | _ => false

def Js.isStr : Js → Bool
  | .str _ => true
  | _ => false

def Js.isArr : Js → Bool
  | .arr _ => true
  | _ => false

def jsFields : Js → List (String × Js)
  | .obj fs => fs
  | _ => []

/-- JavaScript truthiness of a value. -/
def jsTruthy : Js → Bool
  | .null => false
  | .bool b => b
  | .num n => n != 0
  | .str s => !(s = "")
  | .arr _ => true
  | .obj _ => true

def jsTruthyOpt : Option Js → Bool
  | some v => jsTruthy v
  | none => false

/-- Model of `s.split("/").pop()`. -/
def lastSegAux : List Char → List Char → List Char
  | [], acc => acc.reverse
  | c :: rest, acc => if c = '/' then lastSegAux rest [] else lastSegAux rest (c :: acc)

def lastSegment (s : String) : String := String.mk (lastSegAux s.data [])

/-- Model of `Set.add` on an insertion-ordered string set. -/
def addSet (l : List String) (x : String) : List String :=
  if x ∈ l then l else l ++ [x]

/-- Model of `Object.entries`/`Object.values`/`Object.assign` source enumeration:
an object's fields, a string's indexed characters, an array's indexed elements. -/
def ownEnumerableFields : Js → List (String × Js)
  | .obj fs => fs
  | .str s => s.data.enum.map fun p => (toString p.1, Js.str (String.mk [p.2]))
  | .arr xs => xs.enum.map fun p => (toString p.1, p.2)
  | _ => []

/-- One assignment `target[k] = v`: an existing key keeps its position with the
new value, a new key is appended (JavaScript object update semantics). -/
def assignField : List (String × Js) → String → Js → List (String × Js)
  | [], k, v => [(k, v)]
  | (k2, v2) :: rest, k, v =>
      if k2 = k then (k2, v) :: rest else (k2, v2) :: assignField rest k v

/-- Model of `Object.assign(target, src)`. -/
def objAssign (target : List (String × Js)) (src : List (String × Js)) : List (String × Js) :=
  src.foldl (fun acc kv => assignField acc kv.1 kv.2) target

mutual
/-- String coercion used by `Array.prototype.join`: null becomes the empty
string, arrays join their elements with commas, objects print as
`[object Object]`. -/
def jsItemString : Js → String
  | .null => ""
  | .bool b => if b then "true" else "false"
  | .num n => toString n
  | .str s => s
  | .arr xs => String.intercalate "," (jsItemStrings xs)
  | .obj _ => "[object Object]"

def jsItemStrings : List Js → List String
  | [] => []
  | v :: rest => jsItemString v :: jsItemStrings rest
end

/-- One mapped enum literal as it reaches the join: strings are single-quoted,
every other value is coerced by the join. -/
def enumElemString (v : Js) : String :=
  match v with
  | .str s => "\x27" ++ s ++ "\x27"
  | _ => jsItemString v

/-- Strict comparison `fields.type === tag`. -/
def isTypeTag (fields : List (String × Js)) (tag : String) : Bool :=
  match lookupField fields "type" with
  | some (.str t) => t == tag
  | _ => false

def formatIs (fields : List (String × Js)) (s : String) : Bool :=
  match lookupField fields "format" with
  | some (.str t) => t == s
  | _ => false

/-- Non-recursive `$ref` branch of getTypeScriptType: `refName || "any"`. -/
def refResult (fields : List (String × Js)) : Option (Except String String) :=
  match lookupField fields "$ref" with
  | some rv =>
      if jsTruthy rv then
        match rv with
        | .str rs =>
            let refName := lastSegment rs
            some (.ok (if refName = "" then "any" else refName))
        | _ => some (.error "TypeError: split is not a function")
      else none
  | none => none

/-- Non-recursive enum branch of getTypeScriptType. -/
def enumResult (fields : List (String × Js)) : Option (Except String String) :=
  match lookupField fields "enum" with
  | some ev =>
      if jsTruthy ev then
        match ev with
        | .arr vs => some (.ok (String.intercalate " | " (vs.map enumElemString)))
        | _ => some (.error "TypeError: map is not a function")
      else none
  | none => none

/-- Primitive cases of the type switch (string/number/integer/boolean/default). -/
def primResult (fields : List (String × Js)) : Except String String :=
  if isTypeTag fields "string" then
    .ok (if formatIs fields "date-time" || formatIs fields "date" then "Date" else "string")
  else if isTypeTag fields "number" || isTypeTag fields "integer" then .ok "number"
  else if isTypeTag fields "boolean" then .ok "boolean"
  else .ok "any"

mutual
/-- Model of the source's `getTypeScriptType`: schema node to TypeScript type
expression, or a TypeError where the dynamic shape breaks an assumed operation. -/
def getTypeScriptType (v : Js) (allSchemas : List (String × Js)) : Except String String :=
  match v with
  | .null => .error "TypeError: cannot read properties of null"
  | .obj fields =>
      match refResult fields with
      | some r => r
      | none =>
          match enumResult fields with
          | some r => r
          | none =>
              if isTypeTag fields "array" then getTArrWalk allSchemas fields
              else if isTypeTag fields "object" then getTObjWalk allSchemas fields
              else primResult fields
  | _ => .ok "any"
termination_by structural v

/-- Walk for the `items` field of an array-typed schema. -/
def getTArrWalk (allSchemas : List (String × Js)) (l : List (String × Js)) :
    Except String String :=
  match l with
  | [] => .ok "any[]"
  | (k, v) :: rest =>
      if k = "items" then
        if jsTruthy v then
          match getTypeScriptType v allSchemas with
          | .error e => .error e
          | .ok t => .ok (t ++ "[]")
        else .ok "any[]"
      else getTArrWalk allSchemas rest
termination_by structural l

/-- Walk for the `properties` field of an object-typed schema. -/
def getTObjWalk (allSchemas : List (String × Js)) (l : List (String × Js)) :
    Except String String :=
  match l with
  | [] => .ok "Record<string, any>"
  | (k, v) :: rest =>
      if k = "properties" then
        if jsTruthy v then getTPropsOf allSchemas v
        else .ok "Record<string, any>"
      else getTObjWalk allSchemas rest
termination_by structural l

/-- `Object.entries(properties)` dispatch on the shape of a truthy
`properties` value, rendered as an inline record type. -/
def getTPropsOf (allSchemas : List (String × Js)) (v : Js) : Except String String :=
  match v with
  | .obj pf =>
      match getTPropsList allSchemas pf with
      | .error e => .error e
      | .ok body => .ok ("\x7b " ++ body ++ " \x7d")
  | .arr xs =>
      match getTPropsArr allSchemas 0 xs with
      | .error e => .error e
      | .ok body => .ok ("\x7b " ++ body ++ " \x7d")
  | .str s =>
      .ok ("\x7b " ++
        String.intercalate "; " ((List.range s.length).map fun i => toString i ++ ": any")
        ++ " \x7d")
  | _ => .ok "\x7b  \x7d"
termination_by structural v

/-- Entries of an inline `properties` object, rendered `key: type` joined by `; `. -/
def getTPropsList (allSchemas : List (String × Js)) (l : List (String × Js)) :
    Except String String :=
  match l with
  | [] => .ok ""
  | [(k, v)] =>
      match getTypeScriptType v allSchemas with
      | .error e => .error e
      | .ok t => .ok (k ++ ": " ++ t)
  | (k, v) :: r2 :: rest =>
      match getTypeScriptType v allSchemas with
      | .error e => .error e
      | .ok t =>
          match getTPropsList allSchemas (r2 :: rest) with
          | .error e => .error e
          | .ok r => .ok (k ++ ": " ++ t ++ "; " ++ r)
termination_by structural l

/-- Entries of an array used as `properties`: integer keys in ascending order. -/
def getTPropsArr (allSchemas : List (String × Js)) (i : Nat) (l : List Js) :
    Except String String :=
  match l with
  | [] => .ok ""
  | [v] =>
      match getTypeScriptType v allSchemas with
      | .error e => .error e
      | .ok t => .ok (toString i ++ ": " ++ t)
  | v :: v2 :: rest =>
      match getTypeScriptType v allSchemas with
      | .error e => .error e
      | .ok t =>
          match getTPropsArr allSchemas (i + 1) (v2 :: rest) with
          | .error e => .error e
          | .ok r => .ok (toString i ++ ": " ++ t ++ "; " ++ r)
termination_by structural l
end

/-- Non-recursive `$ref` step of `collectRefs`: adds the referenced name unless
it is empty or equals the owning schema's name. -/
def collectRefSelf (ownName : String) (used : List String) (fields : List (String × Js)) :
    Except String (List String) :=
  match lookupField fields "$ref" with
  | some rv =>
      if jsTruthy rv then
        match rv with
        | .str rs =>
            let refName := lastSegment rs
            .ok (if refName ≠ "" ∧ refName ≠ ownName then addSet used refName else used)
        | _ => .error "TypeError: split is not a function"
      else .ok used
  | none => .ok used

mutual
/-- Model of the source's `collectRefs`: accumulates referenced schema names,
in encounter order, from a property node and its array items / nested object
properties. -/
def collectRefs (ownName : String) (used : List String) : Js → Except String (List String)
  | .null => .error "TypeError: cannot read properties of null"
  | .obj fields =>
      match collectRefSelf ownName used fields with
      | .error e => .error e
      | .ok used1 =>
          collectRefsWalk ownName (isTypeTag fields "array") (isTypeTag fields "object")
            used1 fields
  | _ => .ok used

/-- `Object.values(properties).forEach(collectRefs)` dispatch on the shape of
a truthy `properties` value: objects and arrays enumerate their values, any
other truthy value enumerates nothing. -/
def collectRefsProps (ownName : String) (used : List String) (v : Js) :
    Except String (List String) :=
  match v with
  | .obj pf => collectRefsPairs ownName used pf
  | .arr xs => collectRefsList ownName used xs
  | _ => .ok used

/-- Walk over a node's fields looking for `items` (when array-typed) and
`properties` (when object-typed). -/
def collectRefsWalk (ownName : String) (doItems doProps : Bool) (used : List String) :
    List (String × Js) → Except String (List String)
  | [] => .ok used
  | (k, v) :: rest =>
      if k = "items" then
        if doItems ∧ jsTruthy v then
          match collectRefs ownName used v with
          | .error e => .error e
          | .ok u2 => collectRefsWalk ownName doItems doProps u2 rest
        else collectRefsWalk ownName doItems doProps used rest
      else if k = "properties" then
        if doProps ∧ jsTruthy v then
          match collectRefsProps ownName used v with
          | .error e => .error e
          | .ok u2 => collectRefsWalk ownName doItems doProps u2 rest
        else collectRefsWalk ownName doItems doProps used rest
      else collectRefsWalk ownName doItems doProps used rest

/-- `Object.values(properties).forEach(collectRefs)` over an object's fields. -/
def collectRefsPairs (ownName : String) (used : List String) :
    List (String × Js) → Except String (List String)
  | [] => .ok used
  | (_, v) :: rest =>
      match collectRefs ownName used v with
      | .error e => .error e
      | .ok u => collectRefsPairs ownName u rest

/-- `Object.values` enumeration of an array used as `properties`. -/
def collectRefsList (ownName : String) (used : List String) :
    List Js → Except String (List String)
  | [] => .ok used
  | v :: rest =>
      match collectRefs ownName used v with
      | .error e => .error e
      | .ok u => collectRefsList ownName u rest
end

/-- Mutable state of `generateDTOType` before rendering: merged properties,
the `requiredProps` set (only membership of string names is ever consumed, so
a duplicate-preserving list is an equivalent model), the `extends` list, and
the insertion-ordered `usedRefs` set. -/
structure DtoSt where
  props : List (String × Js)
  req : List Js
  inh : List String
  used : List String
deriving Repr

/-- Model of `(x.required || []).forEach(r => requiredProps.add(r))`. -/
def partRequired (req : List Js) (pfields : List (String × Js)) : Except String (List Js) :=
  match lookupField pfields "required" with
  | some rv =>
      if jsTruthy rv then
        match rv with
        | .arr xs => .ok (req ++ xs)
        | _ => .error "TypeError: forEach is not a function"
      else .ok req
  | none => .ok req

/-- The inline (`else if`) branch of the `allOf` loop. -/
def allOfInline (st : DtoSt) (pfields : List (String × Js)) : Except String DtoSt :=
  if isTypeTag pfields "object" then
    match lookupField pfields "properties" with
    | some pv =>
        if jsTruthy pv then
          match partRequired st.req pfields with
          | .error e => .error e
          | .ok req2 =>
              .ok { st with props := objAssign st.props (ownEnumerableFields pv), req := req2 }
        else .ok st
    | none => .ok st
  else .ok st

/-- One iteration of the `allOf` loop. -/
def allOfStep (st : DtoSt) (part : Js) : Except String DtoSt :=
  if part.isNull then .error "TypeError: cannot read properties of null"
  else
      match lookupField (jsFields part) "$ref" with
      | some rv =>
          if jsTruthy rv then
            match rv with
            | .str rs =>
                if lastSegment rs = "" then .ok st
                else .ok ⟨st.props, st.req, st.inh ++ [lastSegment rs], addSet st.used (lastSegment rs)⟩
            | _ => .error "TypeError: split is not a function"
          else allOfInline st (jsFields part)
      | none => allOfInline st (jsFields part)

def allOfLoop : DtoSt → List Js → Except String DtoSt
  | st, [] => .ok st
  | st, p :: rest =>
      match allOfStep st p with
      | .error e => .error e
      | .ok st2 => allOfLoop st2 rest

/-- Model of `new Set(schema.required || [])`: arrays contribute their
elements, strings are iterated character by character, any other truthy value
is not iterable and throws. -/
def requiredSeed (fields : List (String × Js)) : Except String (List Js) :=
  match lookupField fields "required" with
  | some rv =>
      if jsTruthy rv then
        match rv with
        | .arr xs => .ok xs
        | .str s => .ok (s.data.map fun c => Js.str (String.mk [c]))
        | _ => .error "TypeError: not iterable"
      else .ok []
  | none => .ok []

/-- The `else` branch: `properties = schema.properties || {}` followed by the
top-level `required` forEach. -/
def elseBranchSt (fields : List (String × Js)) (req0 : List Js) : Except String DtoSt :=
  let props :=
    match lookupField fields "properties" with
    | some pv => if jsTruthy pv then ownEnumerableFields pv else []
    | none => []
  match partRequired req0 fields with
  | .error e => .error e
  | .ok req => .ok ⟨props, req, [], []⟩

/-- The `for..of` iterable view of a truthy `allOf` value: arrays iterate
their elements, strings iterate their characters, anything else throws. -/
def dtoPartsOf (av : Js) : Except String (List Js) :=
  match av with
  | .arr ps => .ok ps
  | .str s => .ok (s.data.map fun c => Js.str (String.mk [c]))
  | _ => .error "TypeError: not iterable"

/-- The `allOf` loop, or the `else` branch when `allOf` is falsy. -/
def dtoStateNoCollect (schema : Js) : Except String DtoSt :=
  match requiredSeed (jsFields schema) with
  | .error e => .error e
  | .ok req0 =>
      match lookupField (jsFields schema) "allOf" with
      | some av =>
          if jsTruthy av then
            match dtoPartsOf av with
            | .error e => .error e
            | .ok parts => allOfLoop ⟨[], req0, [], []⟩ parts
          else elseBranchSt (jsFields schema) req0
      | none => elseBranchSt (jsFields schema) req0

/-- State of `generateDTOType` for a non-enum schema after the `allOf`/`else`
branch and the `collectRefs` traversal of the merged properties. -/
def dtoState (name : String) (schema : Js) : Except String DtoSt :=
  match dtoStateNoCollect schema with
  | .error e => .error e
  | .ok st =>
      match collectRefsPairs name st.used st.props with
      | .error e => .error e
      | .ok used => .ok { st with used := used }

def importLine (ref : String) : String :=
  "import type \x7b " ++ ref ++ " \x7d from \x27./" ++ ref ++ "\x27;"

def importSection (used : List String) : String :=
  if used.isEmpty then "" else String.intercalate "\n" (used.map importLine) ++ "\n\n"

def extendsClause (inh : List String) : String :=
  if inh.isEmpty then "" else " extends " ++ String.intercalate ", " inh

/-- `requiredProps.has(propName)`: SameValueZero comparison of a string name
against the stored values. -/
def reqContains (req : List Js) (pn : String) : Bool :=
  req.any fun v =>
    match v with
    | .str t => t == pn
    | _ => false

def optMarker (req : List Js) (pn : String) : String :=
  if reqContains req pn then "" else "?"

/-- The property lines of the generated interface body. -/
def bodyLines (allSchemas : List (String × Js)) (req : List Js) :
    List (String × Js) → Except String String
  | [] => .ok ""
  | (pn, ps) :: rest =>
      match getTypeScriptType ps allSchemas with
      | .error e => .error e
      | .ok t =>
          match bodyLines allSchemas req rest with
          | .error e => .error e
          | .ok r => .ok ("  " ++ pn ++ optMarker req pn ++ ": " ++ t ++ ";\n" ++ r)

def enumAliasLine (name : String) (vs : List Js) : String :=
  "export type " ++ name ++ " = " ++ String.intercalate " | " (vs.map enumElemString) ++ ";\n"

/-- Rendering of a non-enum schema: imports, interface header with extends
clause, property lines. -/
def generateDTOBody (name : String) (schema : Js) (allSchemas : List (String × Js)) :
    Except String String :=
  match dtoState name schema with
  | .error e => .error e
  | .ok st =>
      match bodyLines allSchemas st.req st.props with
      | .error e => .error e
      | .ok body =>
          .ok (importSection st.used ++ "export interface " ++ name ++ extendsClause st.inh
               ++ " \x7b\n" ++ body ++ "\x7d\n")

/-- Model of the source's `generateDTOType`. -/
def generateDTOType (name : String) (schema : Js) (allSchemas : List (String × Js)) :
    Except String String :=
  if schema.isNull then .error "TypeError: cannot read properties of null"
  else
      let fields := jsFields schema
      match lookupField fields "enum" with
      | some ev =>
          if jsTruthy ev then
            match ev with
            | .arr vs => .ok (enumAliasLine name vs)
            | _ => .error "TypeError: map is not a function"
          else generateDTOBody name schema allSchemas
      | none => generateDTOBody name schema allSchemas

def dtoExportLine (n : String) : String :=
  "export type \x7b " ++ n ++ " \x7d from \x27./" ++ n ++ "\x27;"

/-- Model of the source's `generateDTOs` loop: files are written as the loop
progresses; a thrown `TypeError` aborts the loop, so the remaining schemas and
the index file are not written.  The boolean records whether the whole loop
(including the index write) completed. -/
def generateDTOsAux (allSchemas : List (String × Js)) :
    List (String × Js) → List (String × String) → List String →
    List (String × String) × Bool
  | [], written, exps => (written ++ [("index.ts", String.intercalate "\n" exps ++ "\n")], true)
  | (n, s) :: rest, written, exps =>
      match generateDTOType n s allSchemas with
      | .ok content =>
          generateDTOsAux allSchemas rest (written ++ [(n ++ ".ts", content)])
            (exps ++ [dtoExportLine n])
      | .error _ => (written, false)

def generateDTOs (schemas : List (String × Js)) : List (String × String) × Bool :=
  generateDTOsAux schemas schemas [] []

/-! ## Client generation -/

/-- One operation object, with the fields the generator reads.  `parameters`
entries are `(name, in)` pairs.  Absent fields are `none`; the generator's
`||` fallbacks treat `none` and the empty string alike. -/
structure Operation where
  operationId : Option String
  summary : Option String
  description : Option String
  parameters : List (String × String)
deriving Repr

/-- Scanner model of `pathTemplate.match(/\x7b([^\x7d]+)\x7d/g)` with the
braces stripped from each match: `none` is outside a candidate match, `some
acc` holds the (reversed) token characters seen since the opening brace. -/
def extractPathAux : List Char → Option (List Char) → List String
  | [], _ => []
  | c :: rest, none =>
      if c = '\x7b' then extractPathAux rest (some []) else extractPathAux rest none
  | c :: rest, some acc =>
      if c = '\x7d' then
        if acc.isEmpty then extractPathAux rest none
        else String.mk acc.reverse :: extractPathAux rest none
      else extractPathAux rest (some (c :: acc))

/-- Model of the source's `extractPathParameters`. -/
def extractPathParameters (pathTemplate : String) : List String :=
  extractPathAux pathTemplate.data none

/-- Model of the source's `extractQueryParameters`. -/
def extractQueryParameters (op : Operation) : List String :=
  (op.parameters.filter fun p => p.2 == "query").map fun p => p.1

/-- Scanner model of `path.replace(/\x7b[^\x7d]+\x7d/g, "By")`: a completed
brace pair with a nonempty token becomes `By`; an empty pair or an unclosed
brace passes through unchanged. -/
def replaceBracesAux : List Char → Option (List Char) → List Char
  | [], none => []
  | [], some acc => '\x7b' :: acc.reverse
  | c :: rest, none =>
      if c = '\x7b' then replaceBracesAux rest (some [])
      else c :: replaceBracesAux rest none
  | c :: rest, some acc =>
      if c = '\x7d' then
        if acc.isEmpty then '\x7b' :: '\x7d' :: replaceBracesAux rest none
        else 'B' :: 'y' :: replaceBracesAux rest none
      else replaceBracesAux rest (some (c :: acc))

/-- The character class kept by the strip `replace(/[^a-zA-Z0-9]/g, "")`. -/
def isAsciiAlphanum (c : Char) : Bool :=
  ('a' ≤ c && c ≤ 'z') || ('A' ≤ c && c ≤ 'Z') || ('0' ≤ c && c ≤ '9')

/-- Model of the source's `generateOperationId` (the `method` argument is
unused there as well). -/
def generateOperationId (method pathTemplate : String) : String :=
  String.mk ((replaceBracesAux pathTemplate.data none).filter isAsciiAlphanum)

/-- The separator class `[-_\s]` of camelCase, over ASCII and the common
Unicode spaces. -/
def isSepChar (c : Char) : Bool :=
  c = '-' || c = '_' || c = ' ' || c = '\t' || c = '\n' || c = '\r' ||
  c = '\x0b' || c = '\x0c' || c = ' '

/-- Model of `replace(/[-_\s]+(.)/g, (_, c) => c.toUpperCase())` composed with
the alphanumeric strip: separator runs disappear and the character following a
run is uppercased.  Case mapping is ASCII, the scope of every name this
development evaluates. -/
def replaceSepsAux : List Char → Bool → List Char
  | [], _ => []
  | c :: rest, afterSep =>
      if isSepChar c then replaceSepsAux rest true
      else (if afterSep then c.toUpper else c) :: replaceSepsAux rest false

/-- Model of the source's `camelCase`: the first character is lowercased and
kept (it is outside the stripped slice), the rest is separator-collapsed and
stripped to alphanumerics. -/
def camelCase (str : String) : String :=
  match str.data with
  | [] => ""
  | c :: rest => String.mk (c.toLower :: (replaceSepsAux rest false).filter isAsciiAlphanum)

/-- Model of the source's `pascalCase`. -/
def pascalCase (str : String) : String :=
  match (camelCase str).data with
  | [] => ""
  | c :: rest => String.mk (c.toUpper :: rest)

def asciiLower (s : String) : String := String.mk (s.data.map Char.toLower)

def asciiUpper (s : String) : String := String.mk (s.data.map Char.toUpper)

/-- Model of `operation.operationId || generateOperationId(method, pathTemplate)`. -/
def chosenOperationId (oid : Option String) (method pathTemplate : String) : String :=
  match oid with
  | some s => if s = "" then generateOperationId method pathTemplate else s
  | none => generateOperationId method pathTemplate

/-- The method filter `["get","post","put","delete","patch"].includes(method.toLowerCase())`. -/
def methodAllowed (method : String) : Bool :=
  (["get", "post", "put", "delete", "patch"] : List String).contains (asciiLower method)

/-- The generated method name: HTTP method key concatenated with the
Pascal-cased operation identifier. -/
def methodNameOf (method pathTemplate : String) (op : Operation) : String :=
  method ++ pascalCase (chosenOperationId op.operationId method pathTemplate)

/-- The JSDoc block of one generated method. -/
def jsdocOf (method pathTemplate : String) (op : Operation) : String :=
  let methodName := methodNameOf method pathTemplate op
  let pathParams := extractPathParameters pathTemplate
  let queryParams := extractQueryParameters op
  let summaryLine :=
    match op.summary with
    | some s => if s = "" then asciiUpper method ++ " " ++ pathTemplate else s
    | none => asciiUpper method ++ " " ++ pathTemplate
  "  /**\n" ++ "   * " ++ summaryLine ++ "\n"
  ++ (match op.description with
      | some d => if d = "" then "" else "   * " ++ d ++ "\n"
      | none => "")
  ++ String.join (pathParams.map fun p => "   * @param " ++ p ++ " Path parameter\n")
  ++ (if queryParams.length > 0 then "   * @param queryParams Query parameters\n" else "")
  ++ "   * @returns URL for the " ++ methodName ++ " endpoint\n"
  ++ "   */\n"

/-- The signature of one generated method: one `string | number` parameter per
extracted path parameter, then the optional query-parameters object. -/
def methodSignature (method pathTemplate : String) (op : Operation) : String :=
  let pathParams := extractPathParameters pathTemplate
  let queryParams := extractQueryParameters op
  let params :=
    pathParams.map (fun p => p ++ ": string | number")
    ++ (if queryParams.length > 0 then
          ["queryParams?: \x7b "
           ++ String.intercalate "; " (queryParams.map fun p => p ++ "?: any")
           ++ " \x7d"]
        else [])
  methodNameOf method pathTemplate op ++ "(" ++ String.intercalate ", " params ++ "): string"

def queryBlock : String :=
  "    if (queryParams) \x7b\n"
  ++ "      const searchParams = new URLSearchParams();\n"
  ++ "      Object.entries(queryParams).forEach(([key, value]) => \x7b\n"
  ++ "        if (value !== undefined && value !== null) \x7b\n"
  ++ "          searchParams.append(key, String(value));\n"
  ++ "        \x7d\n"
  ++ "      \x7d);\n"
  ++ "      const queryString = searchParams.toString();\n"
  ++ "      if (queryString) url += \x27?\x27 + queryString;\n"
  ++ "    \x7d\n"

/-- The body of one generated method: URL construction only. -/
def methodBody (pathTemplate : String) (op : Operation) : String :=
  let pathParams := extractPathParameters pathTemplate
  let queryParams := extractQueryParameters op
  "    let url = this.baseUrl + \x27" ++ pathTemplate ++ "\x27;\n"
  ++ String.join (pathParams.map fun p =>
       "    url = url.replace(\x27\x7b" ++ p ++ "\x7d\x27, String(" ++ p ++ "));\n")
  ++ (if queryParams.length > 0 then queryBlock else "")
  ++ "    return url;"

def fullMethod (method pathTemplate : String) (op : Operation) : String :=
  jsdocOf method pathTemplate op ++ "  " ++ methodSignature method pathTemplate op
  ++ " \x7b\n" ++ methodBody pathTemplate op ++ "\n  \x7d"

/-- One `(pathTemplate, method)` pair: a method is generated exactly when the
lowercased method key passes the filter. -/
def genForPair (pathTemplate method : String) (op : Operation) : Option String :=
  if methodAllowed method then some (fullMethod method pathTemplate op) else none

def generateClientMethods (paths : List (String × List (String × Operation))) : List String :=
  (paths.map fun pi => pi.2.filterMap fun mo => genForPair pi.1 mo.1 mo.2).flatten

def clientHeader (fileName className baseUrl : String) : String :=
  "/**\n * Client API généré pour " ++ fileName ++ "\n * Base URL: " ++ baseUrl ++ "\n */\n"
  ++ "export class " ++ className ++ " \x7b\n  private baseUrl: string;\n\n"
  ++ "  constructor(baseUrl?: string) \x7b\n    this.baseUrl = (baseUrl || \x27" ++ baseUrl
  ++ "\x27).replace(/\\/$/, \x27\x27);\n  \x7d\n\n"
  ++ "  /**\n   * Obtient l\x27URL de base configurée\n   */\n"
  ++ "  getBaseUrl(): string \x7b\n    return this.baseUrl;\n  \x7d\n\n"

/-- Model of the source's `generateClientClass` output text. -/
def generateClientClass (fileName className baseUrl : String)
    (paths : List (String × List (String × Operation))) : String :=
  clientHeader fileName className baseUrl
  ++ String.intercalate "\n\n" (generateClientMethods paths) ++ "\n\x7d\n"

/-- One parsed document: server URLs in order, path items in order, schemas in
order. -/
structure Document where
  servers : List String
  paths : List (String × List (String × Operation))
  schemas : List (String × Js)

/-- One generation run for one document: DTO files (when schemas exist), and
the client file unless DTO generation threw. -/
def generateRun (fileName className : String) (doc : Document) :
    List (String × String) × Option String :=
  if doc.schemas.isEmpty then
    ([], some (generateClientClass fileName className (doc.servers.headD "") doc.paths))
  else
    let dto := generateDTOs doc.schemas
    (dto.1,
     if dto.2 then some (generateClientClass fileName className (doc.servers.headD "") doc.paths)
     else none)

/-! ## Basic lemmas about the set and object models -/

theorem mem_addSet {l : List String} {x n : String} (h : n ∈ addSet l x) : n ∈ l ∨ n = x := by
  unfold addSet at h
  split at h
  · exact Or.inl h
  · rcases List.mem_append.mp h with h1 | h1
    · exact Or.inl h1
    · exact Or.inr (List.mem_singleton.mp h1)

theorem subset_addSet (l : List String) (x : String) : l ⊆ addSet l x := by
  unfold addSet
  split
  · exact fun a ha => ha
  · exact fun a ha => List.mem_append.mpr (Or.inl ha)

theorem mem_addSet_self (l : List String) (x : String) : x ∈ addSet l x := by
  unfold addSet
  split
  · assumption
  · exact List.mem_append.mpr (Or.inr (List.mem_singleton.mpr rfl))

theorem mem_addSet_iff (l : List String) (x n : String) : n ∈ addSet l x ↔ n ∈ l ∨ n = x := by
  constructor
  · exact mem_addSet
  · rintro (h | rfl)
    · exact subset_addSet l x h
    · exact mem_addSet_self l n

theorem nodup_addSet {l : List String} (x : String) (h : l.Nodup) : (addSet l x).Nodup := by
  unfold addSet
  split
  · exact h
  · next hx => simp [List.nodup_append, h, hx]

theorem reqContains_append (r1 r2 : List Js) (pn : String) :
    reqContains (r1 ++ r2) pn = (reqContains r1 pn || reqContains r2 pn) := by
  simp [reqContains, List.any_append]

theorem mem_assignField {l : List (String × Js)} {k0 : String} {v0 : Js} {kv : String × Js}
    (h : kv ∈ assignField l k0 v0) : kv ∈ l ∨ kv = (k0, v0) := by
  induction l with
  | nil => simpa [assignField] using h
  | cons hd tl ih =>
      unfold assignField at h
      split at h
      · rcases List.mem_cons.mp h with h1 | h1
        · next heq => exact Or.inr (by simp [h1, heq])
        · exact Or.inl (List.mem_cons_of_mem _ h1)
      · rcases List.mem_cons.mp h with h1 | h1
        · exact Or.inl (h1 ▸ List.mem_cons_self _ _)
        · rcases ih h1 with h2 | h2
          · exact Or.inl (List.mem_cons_of_mem _ h2)
          · exact Or.inr h2

theorem mem_objAssign {t s : List (String × Js)} {kv : String × Js}
    (h : kv ∈ objAssign t s) : kv ∈ t ∨ kv ∈ s := by
  induction s generalizing t with
  | nil => exact Or.inl h
  | cons hd tl ih =>
      have h2 : kv ∈ objAssign (assignField t hd.1 hd.2) tl := h
      rcases ih h2 with h3 | h3
      · rcases mem_assignField h3 with h4 | h4
        · exact Or.inl h4
        · exact Or.inr (List.mem_cons.mpr (Or.inl (by simpa using h4)))
      · exact Or.inr (List.mem_cons_of_mem _ h3)

theorem keys_assignField (l : List (String × Js)) (k0 : String) (v0 : Js) (k : String) :
    (∃ v, (k, v) ∈ assignField l k0 v0) ↔ (∃ v, (k, v) ∈ l) ∨ k = k0 := by
  induction l with
  | nil => simp [assignField]
  | cons hd tl ih =>
      unfold assignField
      split
      · next heq =>
          subst heq
          constructor
          · rintro ⟨v, hv⟩
            rcases List.mem_cons.mp hv with h1 | h1
            · exact Or.inr (congrArg Prod.fst h1)
            · exact Or.inl ⟨v, List.mem_cons_of_mem _ h1⟩
          · rintro (⟨v, hv⟩ | rfl)
            · rcases List.mem_cons.mp hv with h1 | h1
              · exact ⟨v0, List.mem_cons.mpr (Or.inl (by simp [Prod.ext_iff] at h1 ⊢; exact h1.1))⟩
              · exact ⟨v, List.mem_cons_of_mem _ h1⟩
            · exact ⟨v0, List.mem_cons.mpr (Or.inl rfl)⟩
      · next hne =>
          constructor
          · rintro ⟨v, hv⟩
            rcases List.mem_cons.mp hv with h1 | h1
            · exact Or.inl ⟨v, List.mem_cons.mpr (Or.inl h1)⟩
            · rcases ih.mp ⟨v, h1⟩ with h2 | h2
              · rcases h2 with ⟨w, hw⟩
                exact Or.inl ⟨w, List.mem_cons_of_mem _ hw⟩
              · exact Or.inr h2
          · rintro (⟨v, hv⟩ | rfl)
            · rcases List.mem_cons.mp hv with h1 | h1
              · exact ⟨v, List.mem_cons.mpr (Or.inl h1)⟩
              · rcases ih.mpr (Or.inl ⟨v, h1⟩) with ⟨w, hw⟩
                exact ⟨w, List.mem_cons_of_mem _ hw⟩
            · rcases ih.mpr (Or.inr rfl) with ⟨w, hw⟩
              exact ⟨w, List.mem_cons_of_mem _ hw⟩

theorem keys_objAssign (t s : List (String × Js)) (k : String) :
    (∃ v, (k, v) ∈ objAssign t s) ↔ (∃ v, (k, v) ∈ t) ∨ (∃ v, (k, v) ∈ s) := by
  induction s generalizing t with
  | nil => simp [objAssign]
  | cons hd tl ih =>
      have step : objAssign t (hd :: tl) = objAssign (assignField t hd.1 hd.2) tl := rfl
      rw [step, ih]
      rw [keys_assignField]
      constructor
      · rintro ((h | rfl) | h)
        · exact Or.inl h
        · exact Or.inr ⟨hd.2, List.mem_cons.mpr (Or.inl rfl)⟩
        · exact Or.inr (by rcases h with ⟨v, hv⟩; exact ⟨v, List.mem_cons_of_mem _ hv⟩)
      · rintro (h | ⟨v, hv⟩)
        · exact Or.inl (Or.inl h)
        · rcases List.mem_cons.mp hv with h1 | h1
          · exact Or.inl (Or.inr (congrArg Prod.fst h1))
          · exact Or.inr ⟨v, h1⟩

theorem importLine_inj : Function.Injective importLine := by
  intro a b h
  have hd : (importLine a).data = (importLine b).data := by rw [h]
  simp only [importLine, String.data_append, List.append_assoc] at hd
  have hlen : a.data.length = b.data.length := by
    have h0 := congrArg List.length hd
    simp only [List.length_append, List.length_cons, List.length_nil] at h0
    omega
  have h1 := List.append_cancel_left hd
  exact String.ext (List.append_inj h1 hlen).1

/-! ## Lemmas about the collectRefs traversal -/

theorem collectRefSelf_sub {own : String} {used out : List String} {fields : List (String × Js)}
    (h : collectRefSelf own used fields = .ok out) : used ⊆ out := by
  unfold collectRefSelf at h
  split at h
  · split at h
    · split at h
      · cases h
        split
        · exact subset_addSet _ _
        · exact fun a ha => ha
      · cases h
    · cases h
      exact fun a ha => ha
  · cases h
    exact fun a ha => ha

theorem collectRefSelf_new {own : String} {used out : List String} {fields : List (String × Js)}
    (h : collectRefSelf own used fields = .ok out) :
    ∀ n ∈ out, n ∈ used ∨ n ≠ own := by
  unfold collectRefSelf at h
  split at h
  · split at h
    · split at h
      · cases h
        intro n hn
        split at hn
        · next hcond =>
            rcases mem_addSet hn with h1 | rfl
            · exact Or.inl h1
            · exact Or.inr hcond.2
        · exact Or.inl hn
      · cases h
    · cases h
      exact fun n hn => Or.inl hn
  · cases h
    exact fun n hn => Or.inl hn

theorem collectRefSelf_nodup {own : String} {used out : List String} {fields : List (String × Js)}
    (h : collectRefSelf own used fields = .ok out) (hd : used.Nodup) : out.Nodup := by
  unfold collectRefSelf at h
  split at h
  · split at h
    · split at h
      · cases h
        split
        · exact nodup_addSet _ hd
        · exact hd
      · cases h
    · cases h; exact hd
  · cases h; exact hd

mutual
theorem collectRefs_sub {own : String} {used : List String} {v : Js} {out : List String}
    (h : collectRefs own used v = .ok out) : used ⊆ out := by
  match v with
  | .null => simp [collectRefs] at h
  | .bool b =>
      have heq : used = out := by simpa [collectRefs] using h
      subst heq; exact fun a ha => ha
  | .num n =>
      have heq : used = out := by simpa [collectRefs] using h
      subst heq; exact fun a ha => ha
  | .str s =>
      have heq : used = out := by simpa [collectRefs] using h
      subst heq; exact fun a ha => ha
  | .arr xs =>
      have heq : used = out := by simpa [collectRefs] using h
      subst heq; exact fun a ha => ha
  | .obj fields =>
      rw [collectRefs] at h
      cases hs : collectRefSelf own used fields with
      | error e => rw [hs] at h; cases h
      | ok u1 =>
          rw [hs] at h
          exact (collectRefSelf_sub hs).trans (collectRefsWalk_sub h)

theorem collectRefsProps_sub {own : String} {used : List String} {v : Js} {out : List String}
    (h : collectRefsProps own used v = .ok out) : used ⊆ out := by
  match v with
  | .obj pf => rw [collectRefsProps] at h; exact collectRefsPairs_sub h
  | .arr xs => rw [collectRefsProps] at h; exact collectRefsList_sub h
  | .null =>
      have heq : used = out := by simpa [collectRefsProps] using h
      subst heq; exact fun a ha => ha
  | .bool b =>
      have heq : used = out := by simpa [collectRefsProps] using h
      subst heq; exact fun a ha => ha
  | .num n =>
      have heq : used = out := by simpa [collectRefsProps] using h
      subst heq; exact fun a ha => ha
  | .str s =>
      have heq : used = out := by simpa [collectRefsProps] using h
      subst heq; exact fun a ha => ha

theorem collectRefsWalk_sub {own : String} {dI dP : Bool} {used : List String}
    {l : List (String × Js)} {out : List String}
    (h : collectRefsWalk own dI dP used l = .ok out) : used ⊆ out := by
  match l with
  | [] => rw [collectRefsWalk] at h; cases h; exact fun a ha => ha
  | (k, v) :: rest =>
      rw [collectRefsWalk] at h
      split at h
      · split at h
        · cases hc : collectRefs own used v with
          | error e => rw [hc] at h; cases h
          | ok u2 =>
              rw [hc] at h
              exact (collectRefs_sub hc).trans (collectRefsWalk_sub h)
        · exact collectRefsWalk_sub h
      · split at h
        · split at h
          · cases hc : collectRefsProps own used v with
            | error e => rw [hc] at h; cases h
            | ok u2 =>
                rw [hc] at h
                exact (collectRefsProps_sub hc).trans (collectRefsWalk_sub h)
          · exact collectRefsWalk_sub h
        · exact collectRefsWalk_sub h

theorem collectRefsPairs_sub {own : String} {used : List String}
    {l : List (String × Js)} {out : List String}
    (h : collectRefsPairs own used l = .ok out) : used ⊆ out := by
  match l with
  | [] => rw [collectRefsPairs] at h; cases h; exact fun a ha => ha
  | (k, v) :: rest =>
      rw [collectRefsPairs] at h
      cases hc : collectRefs own used v with
      | error e => rw [hc] at h; cases h
      | ok u =>
          rw [hc] at h
          exact (collectRefs_sub hc).trans (collectRefsPairs_sub h)

theorem collectRefsList_sub {own : String} {used : List String}
    {l : List Js} {out : List String}
    (h : collectRefsList own used l = .ok out) : used ⊆ out := by
  match l with
  | [] => rw [collectRefsList] at h; cases h; exact fun a ha => ha
  | v :: rest =>
      rw [collectRefsList] at h
      cases hc : collectRefs own used v with
      | error e => rw [hc] at h; cases h
      | ok u =>
          rw [hc] at h
          exact (collectRefs_sub hc).trans (collectRefsList_sub h)
end

mutual
theorem collectRefs_new {own : String} {used : List String} {v : Js} {out : List String}
    (h : collectRefs own used v = .ok out) : ∀ n ∈ out, n ∈ used ∨ n ≠ own := by
  match v with
  | .null => simp [collectRefs] at h
  | .bool b =>
      have heq : used = out := by simpa [collectRefs] using h
      subst heq; exact fun n hn => Or.inl hn
  | .num n =>
      have heq : used = out := by simpa [collectRefs] using h
      subst heq; exact fun n hn => Or.inl hn
  | .str s =>
      have heq : used = out := by simpa [collectRefs] using h
      subst heq; exact fun n hn => Or.inl hn
  | .arr xs =>
      have heq : used = out := by simpa [collectRefs] using h
      subst heq; exact fun n hn => Or.inl hn
  | .obj fields =>
      rw [collectRefs] at h
      cases hs : collectRefSelf own used fields with
      | error e => rw [hs] at h; cases h
      | ok u1 =>
          rw [hs] at h
          intro n hn
          rcases collectRefsWalk_new h n hn with h1 | h1
          · exact collectRefSelf_new hs n h1
          · exact Or.inr h1

theorem collectRefsProps_new {own : String} {used : List String} {v : Js} {out : List String}
    (h : collectRefsProps own used v = .ok out) : ∀ n ∈ out, n ∈ used ∨ n ≠ own := by
  match v with
  | .obj pf => rw [collectRefsProps] at h; exact collectRefsPairs_new h
  | .arr xs => rw [collectRefsProps] at h; exact collectRefsList_new h
  | .null =>
      have heq : used = out := by simpa [collectRefsProps] using h
      subst heq; exact fun n hn => Or.inl hn
  | .bool b =>
      have heq : used = out := by simpa [collectRefsProps] using h
      subst heq; exact fun n hn => Or.inl hn
  | .num n =>
      have heq : used = out := by simpa [collectRefsProps] using h
      subst heq; exact fun n hn => Or.inl hn
  | .str s =>
      have heq : used = out := by simpa [collectRefsProps] using h
      subst heq; exact fun n hn => Or.inl hn

theorem collectRefsWalk_new {own : String} {dI dP : Bool} {used : List String}
    {l : List (String × Js)} {out : List String}
    (h : collectRefsWalk own dI dP used l = .ok out) : ∀ n ∈ out, n ∈ used ∨ n ≠ own := by
  match l with
  | [] => rw [collectRefsWalk] at h; cases h; exact fun n hn => Or.inl hn
  | (k, v) :: rest =>
      rw [collectRefsWalk] at h
      split at h
      · split at h
        · cases hc : collectRefs own used v with
          | error e => rw [hc] at h; cases h
          | ok u2 =>
              rw [hc] at h
              intro n hn
              rcases collectRefsWalk_new h n hn with h1 | h1
              · exact collectRefs_new hc n h1
              · exact Or.inr h1
        · exact collectRefsWalk_new h
      · split at h
        · split at h
          · cases hc : collectRefsProps own used v with
            | error e => rw [hc] at h; cases h
            | ok u2 =>
                rw [hc] at h
                intro n hn
                rcases collectRefsWalk_new h n hn with h1 | h1
                · exact collectRefsProps_new hc n h1
                · exact Or.inr h1
          · exact collectRefsWalk_new h
        · exact collectRefsWalk_new h

theorem collectRefsPairs_new {own : String} {used : List String}
    {l : List (String × Js)} {out : List String}
    (h : collectRefsPairs own used l = .ok out) : ∀ n ∈ out, n ∈ used ∨ n ≠ own := by
  match l with
  | [] => rw [collectRefsPairs] at h; cases h; exact fun n hn => Or.inl hn
  | (k, v) :: rest =>
      rw [collectRefsPairs] at h
      cases hc : collectRefs own used v with
      | error e => rw [hc] at h; cases h
      | ok u =>
          rw [hc] at h
          intro n hn
          rcases collectRefsPairs_new h n hn with h1 | h1
          · exact collectRefs_new hc n h1
          · exact Or.inr h1

theorem collectRefsList_new {own : String} {used : List String}
    {l : List Js} {out : List String}
    (h : collectRefsList own used l = .ok out) : ∀ n ∈ out, n ∈ used ∨ n ≠ own := by
  match l with
  | [] => rw [collectRefsList] at h; cases h; exact fun n hn => Or.inl hn
  | v :: rest =>
      rw [collectRefsList] at h
      cases hc : collectRefs own used v with
      | error e => rw [hc] at h; cases h
      | ok u =>
          rw [hc] at h
          intro n hn
          rcases collectRefsList_new h n hn with h1 | h1
          · exact collectRefs_new hc n h1
          · exact Or.inr h1
end

mutual
theorem collectRefs_nodup {own : String} {used : List String} {v : Js} {out : List String}
    (h : collectRefs own used v = .ok out) (hd : used.Nodup) : out.Nodup := by
  match v with
  | .null => simp [collectRefs] at h
  | .bool b =>
      have heq : used = out := by simpa [collectRefs] using h
      subst heq; exact hd
  | .num n =>
      have heq : used = out := by simpa [collectRefs] using h
      subst heq; exact hd
  | .str s =>
      have heq : used = out := by simpa [collectRefs] using h
      subst heq; exact hd
  | .arr xs =>
      have heq : used = out := by simpa [collectRefs] using h
      subst heq; exact hd
  | .obj fields =>
      rw [collectRefs] at h
      cases hs : collectRefSelf own used fields with
      | error e => rw [hs] at h; cases h
      | ok u1 =>
          rw [hs] at h
          exact collectRefsWalk_nodup h (collectRefSelf_nodup hs hd)

theorem collectRefsProps_nodup {own : String} {used : List String} {v : Js} {out : List String}
    (h : collectRefsProps own used v = .ok out) (hd : used.Nodup) : out.Nodup := by
  match v with
  | .obj pf => rw [collectRefsProps] at h; exact collectRefsPairs_nodup h hd
  | .arr xs => rw [collectRefsProps] at h; exact collectRefsList_nodup h hd
  | .null =>
      have heq : used = out := by simpa [collectRefsProps] using h
      subst heq; exact hd
  | .bool b =>
      have heq : used = out := by simpa [collectRefsProps] using h
      subst heq; exact hd
  | .num n =>
      have heq : used = out := by simpa [collectRefsProps] using h
      subst heq; exact hd
  | .str s =>
      have heq : used = out := by simpa [collectRefsProps] using h
      subst heq; exact hd

theorem collectRefsWalk_nodup {own : String} {dI dP : Bool} {used : List String}
    {l : List (String × Js)} {out : List String}
    (h : collectRefsWalk own dI dP used l = .ok out) (hd : used.Nodup) : out.Nodup := by
  match l with
  | [] => rw [collectRefsWalk] at h; cases h; exact hd
  | (k, v) :: rest =>
      rw [collectRefsWalk] at h
      split at h
      · split at h
        · cases hc : collectRefs own used v with
          | error e => rw [hc] at h; cases h
          | ok u2 =>
              rw [hc] at h
              exact collectRefsWalk_nodup h (collectRefs_nodup hc hd)
        · exact collectRefsWalk_nodup h hd
      · split at h
        · split at h
          · cases hc : collectRefsProps own used v with
            | error e => rw [hc] at h; cases h
            | ok u2 =>
                rw [hc] at h
                exact collectRefsWalk_nodup h (collectRefsProps_nodup hc hd)
          · exact collectRefsWalk_nodup h hd
        · exact collectRefsWalk_nodup h hd

theorem collectRefsPairs_nodup {own : String} {used : List String}
    {l : List (String × Js)} {out : List String}
    (h : collectRefsPairs own used l = .ok out) (hd : used.Nodup) : out.Nodup := by
  match l with
  | [] => rw [collectRefsPairs] at h; cases h; exact hd
  | (k, v) :: rest =>
      rw [collectRefsPairs] at h
      cases hc : collectRefs own used v with
      | error e => rw [hc] at h; cases h
      | ok u =>
          rw [hc] at h
          exact collectRefsPairs_nodup h (collectRefs_nodup hc hd)

theorem collectRefsList_nodup {own : String} {used : List String}
    {l : List Js} {out : List String}
    (h : collectRefsList own used l = .ok out) (hd : used.Nodup) : out.Nodup := by
  match l with
  | [] => rw [collectRefsList] at h; cases h; exact hd
  | v :: rest =>
      rw [collectRefsList] at h
      cases hc : collectRefs own used v with
      | error e => rw [hc] at h; cases h
      | ok u =>
          rw [hc] at h
          exact collectRefsList_nodup h (collectRefs_nodup hc hd)
end

/-! ## Characterization of the allOf loop -/

/-- The `extends` name contributed by one `allOf` part: the final segment of a
truthy string `$ref`, when that segment is nonempty. -/
def partRefName (p : Js) : Option String :=
  match lookupField (jsFields p) "$ref" with
  | some rv =>
      if jsTruthy rv then
        match rv with
        | .str rs => if lastSegment rs = "" then none else some (lastSegment rs)
        | _ => none
      else none
  | none => none

/-- The `$ref` base names of an `allOf` list, in encounter order. -/
def refNamesOf (parts : List Js) : List String := parts.filterMap partRefName

/-- Whether the part's `$ref` field is absent or falsy (so the `else if`
branch is reached). -/
def refFalsy (pfields : List (String × Js)) : Bool :=
  match lookupField pfields "$ref" with
  | some rv => !jsTruthy rv
  | none => true

/-- Whether a field record takes the inline-merge branch: `type: "object"` and
truthy `properties`. -/
def pfIsInline (pfields : List (String × Js)) : Bool :=
  isTypeTag pfields "object"
  && (match lookupField pfields "properties" with
      | some pv => jsTruthy pv
      | none => false)

def pfInlineProps (pfields : List (String × Js)) : List (String × Js) :=
  if pfIsInline pfields then
    match lookupField pfields "properties" with
    | some pv => ownEnumerableFields pv
    | none => []
  else []

def pfInlineReq (pfields : List (String × Js)) : List Js :=
  if pfIsInline pfields then
    match lookupField pfields "required" with
    | some (.arr xs) => xs
    | _ => []
  else []

/-- The properties an `allOf` part merges into the owner. -/
def partProps (p : Js) : List (String × Js) :=
  if refFalsy (jsFields p) then pfInlineProps (jsFields p) else []

/-- The `required` entries an `allOf` part contributes. -/
def partInlineReq (p : Js) : List Js :=
  if refFalsy (jsFields p) then pfInlineReq (jsFields p) else []

/-- The union (in order, duplicates kept) of the inline parts' own `required`
lists. -/
def inlineReq (parts : List Js) : List Js := (parts.map partInlineReq).flatten

/-- The merged property record of the inline parts, by repeated `Object.assign`. -/
def inlineAssignFold (init : List (String × Js)) (parts : List Js) : List (String × Js) :=
  parts.foldl (fun acc p => objAssign acc (partProps p)) init

theorem allOfInline_spec {st st2 : DtoSt} {pfields : List (String × Js)}
    (h : allOfInline st pfields = .ok st2) :
    st2.inh = st.inh ∧ st2.used = st.used ∧
    st2.req = st.req ++ pfInlineReq pfields ∧
    st2.props = objAssign st.props (pfInlineProps pfields) := by
  unfold allOfInline at h
  by_cases hobj : isTypeTag pfields "object" = true
  · rw [if_pos hobj] at h
    rcases hp : lookupField pfields "properties" with _ | pv
    · simp only [hp] at h
      cases h
      simp [pfInlineReq, pfInlineProps, pfIsInline, hp, objAssign]
    · simp only [hp] at h
      by_cases ht : jsTruthy pv = true
      · rw [if_pos ht] at h
        cases hq : partRequired st.req pfields with
        | error e => rw [hq] at h; cases h
        | ok req2 =>
            rw [hq] at h
            cases h
            have hinl : pfIsInline pfields = true := by
              simp [pfIsInline, hobj, hp, ht]
            refine ⟨rfl, rfl, ?_, ?_⟩
            · unfold partRequired at hq
              rcases hreq : lookupField pfields "required" with _ | rv
              · simp only [hreq] at hq
                cases hq
                simp [pfInlineReq, hinl, hreq]
              · simp only [hreq] at hq
                by_cases htr : jsTruthy rv = true
                · rw [if_pos htr] at hq
                  match rv, htr with
                  | .arr xs, _ =>
                      cases hq
                      simp [pfInlineReq, hinl, hreq]
                  | .bool b, htr => cases hq
                  | .num n, htr => cases hq
                  | .str s, htr => cases hq
                  | .obj fs, htr => cases hq
                · rw [if_neg htr] at hq
                  cases hq
                  have : pfInlineReq pfields = [] := by
                    unfold pfInlineReq
                    rw [if_pos hinl, hreq]
                    match rv, htr with
                    | .arr xs, htr => simp [jsTruthy] at htr
                    | .bool b, _ => rfl
                    | .num n, _ => rfl
                    | .str s, _ => rfl
                    | .obj fs, htr => simp [jsTruthy] at htr
                    | .null, _ => rfl
                  simp [this]
            · simp [pfInlineProps, hinl, hp]
      · rw [if_neg ht] at h
        cases h
        have ht2 : jsTruthy pv = false := by simpa using ht
        have : pfIsInline pfields = false := by
          simp [pfIsInline, hp, ht2]
        simp [pfInlineReq, pfInlineProps, this, objAssign]
  · rw [if_neg hobj] at h
    cases h
    have : pfIsInline pfields = false := by simp [pfIsInline, hobj]
    simp [pfInlineReq, pfInlineProps, this, objAssign]

theorem allOfStep_spec {st st2 : DtoSt} {p : Js} (h : allOfStep st p = .ok st2) :
    st2.inh = st.inh ++ (partRefName p).toList ∧
    st2.req = st.req ++ partInlineReq p ∧
    st2.props = objAssign st.props (partProps p) ∧
    (∀ n, n ∈ st2.used ↔ (n ∈ st.used ∨ n ∈ (partRefName p).toList)) ∧
    (st.used.Nodup → st2.used.Nodup) := by
  unfold allOfStep at h
  split at h
  · cases h
  · rcases hr : lookupField (jsFields p) "$ref" with _ | rv
    · simp only [hr] at h
      have hrf : refFalsy (jsFields p) = true := by simp [refFalsy, hr]
      have hrn : partRefName p = none := by simp [partRefName, hr]
      obtain ⟨h1, h2, h3, h4⟩ := allOfInline_spec h
      refine ⟨?_, ?_, ?_, ?_, ?_⟩
      · simp [h1, hrn]
      · simp [h3, partInlineReq, hrf]
      · simp [h4, partProps, hrf]
      · intro n; simp [h2, hrn]
      · intro hd; simpa [h2] using hd
    · simp only [hr] at h
      by_cases ht : jsTruthy rv = true
      · match rv, ht with
        | .str rs, ht =>
            simp only [if_pos ht] at h
            by_cases he : lastSegment rs = ""
            · rw [if_pos he] at h
              cases h
              have hrn : partRefName p = none := by simp [partRefName, hr, ht, he]
              have hrf : refFalsy (jsFields p) = false := by simp [refFalsy, hr, ht]
              refine ⟨?_, ?_, ?_, ?_, fun hd => hd⟩
              · simp [hrn]
              · simp [partInlineReq, hrf]
              · simp [partProps, hrf, objAssign]
              · intro n; simp [hrn]
            · rw [if_neg he] at h
              cases h
              have hrn : partRefName p = some (lastSegment rs) := by
                simp [partRefName, hr, ht, he]
              have hrf : refFalsy (jsFields p) = false := by simp [refFalsy, hr, ht]
              refine ⟨?_, ?_, ?_, ?_, ?_⟩
              · simp [hrn]
              · simp [partInlineReq, hrf]
              · simp [partProps, hrf, objAssign]
              · intro n
                rw [hrn]
                simpa using mem_addSet_iff st.used (lastSegment rs) n
              · exact fun hd => nodup_addSet _ hd
        | .bool b, ht => simp only [if_pos ht] at h; cases h
        | .num n, ht => simp only [if_pos ht] at h; cases h
        | .arr xs, ht => simp only [if_pos ht] at h; cases h
        | .obj fs, ht => simp only [if_pos ht] at h; cases h
        | .null, ht => simp [jsTruthy] at ht
      · rw [if_neg ht] at h
        have hrf : refFalsy (jsFields p) = true := by simp [refFalsy, hr, ht]
        have hrn : partRefName p = none := by simp [partRefName, hr, ht]
        obtain ⟨h1, h2, h3, h4⟩ := allOfInline_spec h
        refine ⟨?_, ?_, ?_, ?_, ?_⟩
        · simp [h1, hrn]
        · simp [h3, partInlineReq, hrf]
        · simp [h4, partProps, hrf]
        · intro n; simp [h2, hrn]
        · intro hd; simpa [h2] using hd

theorem allOfLoop_spec {st st2 : DtoSt} {parts : List Js}
    (h : allOfLoop st parts = .ok st2) :
    st2.inh = st.inh ++ refNamesOf parts ∧
    st2.req = st.req ++ inlineReq parts ∧
    st2.props = inlineAssignFold st.props parts ∧
    (∀ n, n ∈ st2.used ↔ (n ∈ st.used ∨ n ∈ refNamesOf parts)) ∧
    (st.used.Nodup → st2.used.Nodup) := by
  induction parts generalizing st with
  | nil =>
      rw [allOfLoop] at h
      cases h
      simp [refNamesOf, inlineReq, inlineAssignFold]
  | cons p rest ih =>
      rw [allOfLoop] at h
      cases hs : allOfStep st p with
      | error e => rw [hs] at h; cases h
      | ok stm =>
          rw [hs] at h
          obtain ⟨h1, h2, h3, h4, h5⟩ := allOfStep_spec hs
          obtain ⟨g1, g2, g3, g4, g5⟩ := ih h
          have href : refNamesOf (p :: rest) = (partRefName p).toList ++ refNamesOf rest := by
            cases hh : partRefName p <;> simp [refNamesOf, List.filterMap_cons, hh]
          refine ⟨?_, ?_, ?_, ?_, ?_⟩
          · rw [g1, h1, href, List.append_assoc]
          · rw [g2, h2]
            simp [inlineReq, List.append_assoc]
          · rw [g3, h3]
            rfl
          · intro n
            rw [g4 n, h4 n, href]
            simp [or_assoc]
          · exact fun hd => g5 (h5 hd)

/-! ## Glue lemmas at the dtoState level -/

theorem elseBranchSt_shape {fields : List (String × Js)} {req0 : List Js} {st : DtoSt}
    (h : elseBranchSt fields req0 = .ok st) : st.used = [] ∧ st.inh = [] := by
  unfold elseBranchSt at h
  cases hq : partRequired req0 fields with
  | error e => simp only [hq] at h; cases h
  | ok req => simp only [hq] at h; cases h; exact ⟨rfl, rfl⟩

theorem dtoState_allOf {name : String} {schema : Js} {parts : List Js} {st : DtoSt}
    (ha : lookupField (jsFields schema) "allOf" = some (.arr parts))
    (h : dtoState name schema = .ok st) :
    ∃ req0 st0, requiredSeed (jsFields schema) = .ok req0 ∧
      allOfLoop ⟨[], req0, [], []⟩ parts = .ok st0 ∧
      st.inh = st0.inh ∧ st.req = st0.req ∧ st.props = st0.props ∧
      collectRefsPairs name st0.used st0.props = .ok st.used := by
  unfold dtoState at h
  cases hnc : dtoStateNoCollect schema with
  | error e => simp only [hnc] at h; cases h
  | ok st0 =>
      simp only [hnc] at h
      unfold dtoStateNoCollect at hnc
      cases hr : requiredSeed (jsFields schema) with
      | error e => simp only [hr] at hnc; cases hnc
      | ok req0 =>
          simp only [hr, ha] at hnc
          rw [if_pos (show jsTruthy (Js.arr parts) = true from rfl)] at hnc
          simp only [dtoPartsOf] at hnc
          cases hc : collectRefsPairs name st0.used st0.props with
          | error e => simp only [hc] at h; cases h
          | ok used2 =>
              simp only [hc] at h
              cases h
              exact ⟨req0, st0, rfl, hnc, rfl, rfl, rfl, hc⟩

theorem dtoStateNoCollect_nodup {schema : Js} {st0 : DtoSt}
    (h : dtoStateNoCollect schema = .ok st0) : st0.used.Nodup := by
  unfold dtoStateNoCollect at h
  cases hr : requiredSeed (jsFields schema) with
  | error e => simp only [hr] at h; cases h
  | ok req0 =>
      simp only [hr] at h
      cases ha : lookupField (jsFields schema) "allOf" with
      | none =>
          simp only [ha] at h
          exact (elseBranchSt_shape h).1 ▸ List.nodup_nil
      | some av =>
          simp only [ha] at h
          split at h
          · cases hp : dtoPartsOf av with
            | error e => simp only [hp] at h; cases h
            | ok parts =>
                simp only [hp] at h
                exact (allOfLoop_spec h).2.2.2.2 List.nodup_nil
          · exact (elseBranchSt_shape h).1 ▸ List.nodup_nil

theorem dtoState_used_nodup {name : String} {schema : Js} {st : DtoSt}
    (h : dtoState name schema = .ok st) : st.used.Nodup := by
  unfold dtoState at h
  cases hnc : dtoStateNoCollect schema with
  | error e => simp only [hnc] at h; cases h
  | ok st0 =>
      simp only [hnc] at h
      cases hc : collectRefsPairs name st0.used st0.props with
      | error e => simp only [hc] at h; cases h
      | ok used2 =>
          simp only [hc] at h
          cases h
          exact collectRefsPairs_nodup hc (dtoStateNoCollect_nodup hnc)

theorem dtoState_noAllOf_self {name : String} {schema : Js} {st : DtoSt}
    (hna : jsTruthyOpt (lookupField (jsFields schema) "allOf") = false)
    (h : dtoState name schema = .ok st) : name ∉ st.used := by
  unfold dtoState at h
  cases hnc : dtoStateNoCollect schema with
  | error e => simp only [hnc] at h; cases h
  | ok st0 =>
      simp only [hnc] at h
      cases hc : collectRefsPairs name st0.used st0.props with
      | error e => simp only [hc] at h; cases h
      | ok used2 =>
          simp only [hc] at h
          cases h
          have hu0 : st0.used = [] := by
            unfold dtoStateNoCollect at hnc
            cases hr : requiredSeed (jsFields schema) with
            | error e => simp only [hr] at hnc; cases hnc
            | ok req0 =>
                simp only [hr] at hnc
                cases ha : lookupField (jsFields schema) "allOf" with
                | none =>
                    simp only [ha] at hnc
                    exact (elseBranchSt_shape hnc).1
                | some av =>
                    simp only [ha] at hnc
                    rw [ha] at hna
                    simp only [jsTruthyOpt] at hna
                    rw [if_neg (by simp [hna])] at hnc
                    exact (elseBranchSt_shape hnc).1
          intro hmem
          rcases collectRefsPairs_new hc name hmem with h1 | h1
          · rw [hu0] at h1
            cases h1
          · exact h1 rfl

theorem generateDTOBody_spec {name : String} {schema : Js} {allSchemas : List (String × Js)}
    {content : String} (h : generateDTOBody name schema allSchemas = .ok content) :
    ∃ st body, dtoState name schema = .ok st ∧
      bodyLines allSchemas st.req st.props = .ok body ∧
      content = importSection st.used ++ "export interface " ++ name ++ extendsClause st.inh
                ++ " \x7b\n" ++ body ++ "\x7d\n" := by
  unfold generateDTOBody at h
  cases hs : dtoState name schema with
  | error e => simp only [hs] at h; cases h
  | ok st =>
      simp only [hs] at h
      cases hb : bodyLines allSchemas st.req st.props with
      | error e => simp only [hb] at h; cases h
      | ok body =>
          simp only [hb] at h
          cases h
          exact ⟨st, body, rfl, hb, rfl⟩

/-! ## Benign schema shapes: a sufficient condition for throw-free generation -/

mutual
/-- A property node whose dynamic shape supports every operation the resolver
and the reference collector apply to it: non-null, `$ref` a string when
truthy, `enum` an array when truthy, recursively benign `items` and object
`properties` values. -/
def benignProp : Js → Bool
  | .null => false
  | .obj fields => benignFields fields
  | _ => true
termination_by structural v => v

def benignFields : List (String × Js) → Bool
  | [] => true
  | (k, v) :: rest =>
      (if k = "$ref" then !jsTruthy v || v.isStr
       else if k = "enum" then !jsTruthy v || v.isArr
       else if k = "items" then benignProp v
       else if k = "properties" then benignPropsVal v
       else true) && benignFields rest
termination_by structural l => l

/-- Benign shape for a `properties` value: an object with benign values, or a
falsy value (never traversed). -/
def benignPropsVal : Js → Bool
  | .obj pf => benignVals pf
  | x => !jsTruthy x
termination_by structural v => v

def benignVals : List (String × Js) → Bool
  | [] => true
  | (_, v) :: rest => benignProp v && benignVals rest
termination_by structural l => l
end

def refOkF (fields : List (String × Js)) : Bool :=
  match lookupField fields "$ref" with
  | some v => !jsTruthy v || v.isStr
  | none => true

def reqOkF (fields : List (String × Js)) : Bool :=
  match lookupField fields "required" with
  | some v => !jsTruthy v || v.isArr
  | none => true

def enumOkF (fields : List (String × Js)) : Bool :=
  match lookupField fields "enum" with
  | some v => !jsTruthy v || v.isArr
  | none => true

def propsOkF (fields : List (String × Js)) : Bool :=
  match lookupField fields "properties" with
  | some v => benignPropsVal v
  | none => true

/-- One benign `allOf` part: its `$ref`, `required` and `properties` fields
(when present) have workable shapes. -/
def benignPart (p : Js) : Bool :=
  match p with
  | .null => false
  | .obj pf => refOkF pf && reqOkF pf && propsOkF pf
  | _ => true

def allOfOkF (fields : List (String × Js)) : Bool :=
  match lookupField fields "allOf" with
  | some v =>
      (match v with
       | .arr ps => ps.all benignPart
       | x => !jsTruthy x)
  | none => true

/-- A benign named schema: generateDTOType cannot throw on it. -/
def benignSchema (s : Js) : Bool :=
  match s with
  | .null => false
  | .obj fs => enumOkF fs && reqOkF fs && allOfOkF fs && propsOkF fs
  | _ => true

theorem benignVals_iff {l : List (String × Js)} :
    benignVals l = true ↔ ∀ kv ∈ l, benignProp kv.2 = true := by
  induction l with
  | nil => simp [benignVals]
  | cons hd tl ih =>
      rw [benignVals]
      simp [Bool.and_eq_true, ih]

theorem benignFields_lookup_ref {fields : List (String × Js)} {v : Js}
    (hb : benignFields fields = true) (hl : lookupField fields "$ref" = some v) :
    (!jsTruthy v || v.isStr) = true := by
  induction fields with
  | nil => cases hl
  | cons hd tl ih =>
      obtain ⟨k2, v2⟩ := hd
      rw [benignFields, Bool.and_eq_true] at hb
      unfold lookupField at hl
      split at hl
      · next heq =>
          subst heq
          cases hl
          simpa using hb.1
      · exact ih hb.2 hl

theorem benignFields_lookup_enum {fields : List (String × Js)} {v : Js}
    (hb : benignFields fields = true) (hl : lookupField fields "enum" = some v) :
    (!jsTruthy v || v.isArr) = true := by
  induction fields with
  | nil => cases hl
  | cons hd tl ih =>
      obtain ⟨k2, v2⟩ := hd
      rw [benignFields, Bool.and_eq_true] at hb
      unfold lookupField at hl
      split at hl
      · next heq =>
          subst heq
          cases hl
          simpa using hb.1
      · exact ih hb.2 hl

theorem benignFields_lookup_items {fields : List (String × Js)} {v : Js}
    (hb : benignFields fields = true) (hl : lookupField fields "items" = some v) :
    benignProp v = true := by
  induction fields with
  | nil => cases hl
  | cons hd tl ih =>
      obtain ⟨k2, v2⟩ := hd
      rw [benignFields, Bool.and_eq_true] at hb
      unfold lookupField at hl
      split at hl
      · next heq =>
          subst heq
          cases hl
          simpa using hb.1
      · exact ih hb.2 hl

theorem benignFields_lookup_props {fields : List (String × Js)} {v : Js}
    (hb : benignFields fields = true) (hl : lookupField fields "properties" = some v) :
    benignPropsVal v = true := by
  induction fields with
  | nil => cases hl
  | cons hd tl ih =>
      obtain ⟨k2, v2⟩ := hd
      rw [benignFields, Bool.and_eq_true] at hb
      unfold lookupField at hl
      split at hl
      · next heq =>
          subst heq
          cases hl
          simpa using hb.1
      · exact ih hb.2 hl

theorem refResult_ok {fields : List (String × Js)} {r : Except String String}
    (hb : benignFields fields = true) (hr : refResult fields = some r) :
    r.isOk = true := by
  unfold refResult at hr
  cases hl : lookupField fields "$ref" with
  | none => simp only [hl] at hr; cases hr
  | some rv =>
      simp only [hl] at hr
      split at hr
      · next ht =>
          have hbr := benignFields_lookup_ref hb hl
          rw [ht] at hbr
          simp only [Bool.not_true, Bool.false_or] at hbr
          cases rv with
          | str rs =>
              injection hr with h2
              rw [← h2]
              rfl
          | null => simp [Js.isStr] at hbr
          | bool b => simp [Js.isStr] at hbr
          | num n => simp [Js.isStr] at hbr
          | arr xs => simp [Js.isStr] at hbr
          | obj fs => simp [Js.isStr] at hbr
      · cases hr

theorem enumResult_ok {fields : List (String × Js)} {r : Except String String}
    (hb : benignFields fields = true) (hr : enumResult fields = some r) :
    r.isOk = true := by
  unfold enumResult at hr
  cases hl : lookupField fields "enum" with
  | none => simp only [hl] at hr; cases hr
  | some ev =>
      simp only [hl] at hr
      split at hr
      · next ht =>
          have hbe := benignFields_lookup_enum hb hl
          rw [ht] at hbe
          simp only [Bool.not_true, Bool.false_or] at hbe
          cases ev with
          | arr vs =>
              injection hr with h2
              rw [← h2]
              rfl
          | null => simp [Js.isArr] at hbe
          | bool b => simp [Js.isArr] at hbe
          | num n => simp [Js.isArr] at hbe
          | str s => simp [Js.isArr] at hbe
          | obj fs => simp [Js.isArr] at hbe
      · cases hr

theorem primResult_ok (fields : List (String × Js)) : (primResult fields).isOk = true := by
  unfold primResult
  split
  · rfl
  · split
    · rfl
    · split <;> rfl

mutual
theorem getTypeScriptType_ok {v : Js} (hb : benignProp v = true) (allS : List (String × Js)) :
    (getTypeScriptType v allS).isOk = true := by
  match v with
  | .null => simp [benignProp] at hb
  | .bool b => rfl
  | .num n => rfl
  | .str s => rfl
  | .arr xs => rfl
  | .obj fields =>
      rw [benignProp] at hb
      rw [getTypeScriptType]
      cases hrr : refResult fields with
      | some r => simp only [hrr]; exact refResult_ok hb hrr
      | none =>
          simp only [hrr]
          cases her : enumResult fields with
          | some r => simp only [her]; exact enumResult_ok hb her
          | none =>
              simp only [her]
              split
              · exact getTArrWalk_ok allS hb
              · split
                · exact getTObjWalk_ok allS hb
                · exact primResult_ok fields

theorem getTArrWalk_ok (allS : List (String × Js)) {l : List (String × Js)}
    (hb : benignFields l = true) : (getTArrWalk allS l).isOk = true := by
  match l with
  | [] => rfl
  | (k, v) :: rest =>
      rw [benignFields, Bool.and_eq_true] at hb
      rw [getTArrWalk]
      by_cases hk : k = "items"
      · rw [if_pos hk]
        subst hk
        have hbv : benignProp v = true := by simpa using hb.1
        by_cases ht : jsTruthy v = true
        · rw [if_pos ht]
          cases hg : getTypeScriptType v allS with
          | error e =>
              have hok := getTypeScriptType_ok hbv allS
              rw [hg] at hok
              cases hok
          | ok t => simp [hg, Except.isOk, Except.toBool]
        · rw [if_neg ht]; rfl
      · rw [if_neg hk]
        exact getTArrWalk_ok allS hb.2

theorem getTObjWalk_ok (allS : List (String × Js)) {l : List (String × Js)}
    (hb : benignFields l = true) : (getTObjWalk allS l).isOk = true := by
  match l with
  | [] => rfl
  | (k, v) :: rest =>
      rw [benignFields, Bool.and_eq_true] at hb
      rw [getTObjWalk]
      by_cases hk : k = "properties"
      · rw [if_pos hk]
        subst hk
        have hbv : benignPropsVal v = true := by simpa using hb.1
        by_cases ht : jsTruthy v = true
        · rw [if_pos ht]
          exact getTPropsOf_ok allS hbv
        · rw [if_neg ht]; rfl
      · rw [if_neg hk]
        exact getTObjWalk_ok allS hb.2

theorem getTPropsOf_ok (allS : List (String × Js)) {v : Js}
    (hb : benignPropsVal v = true) : (getTPropsOf allS v).isOk = true := by
  match v with
  | .obj pf =>
      rw [benignPropsVal] at hb
      rw [getTPropsOf]
      cases hg : getTPropsList allS pf with
      | error e =>
          have hok := getTPropsList_ok allS hb
          rw [hg] at hok
          cases hok
      | ok body => simp [hg, Except.isOk, Except.toBool]
  | .arr xs => simp [benignPropsVal, jsTruthy] at hb
  | .str s => rfl
  | .null => rfl
  | .bool b => rfl
  | .num n => rfl

theorem getTPropsList_ok (allS : List (String × Js)) {l : List (String × Js)}
    (hb : benignVals l = true) : (getTPropsList allS l).isOk = true := by
  match l with
  | [] => rfl
  | [(k, v)] =>
      rw [benignVals, Bool.and_eq_true] at hb
      rw [getTPropsList]
      cases hg : getTypeScriptType v allS with
      | error e =>
          have hok := getTypeScriptType_ok hb.1 allS
          rw [hg] at hok
          cases hok
      | ok t => simp [hg, Except.isOk, Except.toBool]
  | (k, v) :: r2 :: rest =>
      rw [benignVals, Bool.and_eq_true] at hb
      rw [getTPropsList]
      cases hg : getTypeScriptType v allS with
      | error e =>
          have hok := getTypeScriptType_ok hb.1 allS
          rw [hg] at hok
          cases hok
      | ok t =>
          cases hgr : getTPropsList allS (r2 :: rest) with
          | error e =>
              have hok := getTPropsList_ok allS hb.2
              rw [hgr] at hok
              cases hok
          | ok r => simp [hg, hgr, Except.isOk, Except.toBool]
end

theorem collectRefSelf_ok {own : String} {used : List String} {fields : List (String × Js)}
    (hb : benignFields fields = true) : (collectRefSelf own used fields).isOk = true := by
  unfold collectRefSelf
  cases hl : lookupField fields "$ref" with
  | none => simp only [hl]; rfl
  | some rv =>
      simp only [hl]
      split
      · next ht =>
          have hbr := benignFields_lookup_ref hb hl
          rw [ht] at hbr
          simp only [Bool.not_true, Bool.false_or] at hbr
          cases rv with
          | str rs => rfl
          | null => simp [Js.isStr] at hbr
          | bool b => simp [Js.isStr] at hbr
          | num n => simp [Js.isStr] at hbr
          | arr xs => simp [Js.isStr] at hbr
          | obj fs => simp [Js.isStr] at hbr
      · rfl

mutual
theorem collectRefs_okB {v : Js} (hb : benignProp v = true) (own : String)
    (used : List String) : (collectRefs own used v).isOk = true := by
  match v with
  | .null => simp [benignProp] at hb
  | .bool b => rfl
  | .num n => rfl
  | .str s => rfl
  | .arr xs => rfl
  | .obj fields =>
      rw [benignProp] at hb
      rw [collectRefs]
      cases hs : collectRefSelf own used fields with
      | error e =>
          have hok := @collectRefSelf_ok own used fields hb
          rw [hs] at hok
          cases hok
      | ok u1 => exact collectRefsWalk_okB hb own _ _ u1

theorem collectRefsWalk_okB {l : List (String × Js)} (hb : benignFields l = true)
    (own : String) (dI dP : Bool) (used : List String) :
    (collectRefsWalk own dI dP used l).isOk = true := by
  match l with
  | [] => rfl
  | (k, v) :: rest =>
      rw [benignFields, Bool.and_eq_true] at hb
      rw [collectRefsWalk]
      by_cases hk : k = "items"
      · rw [if_pos hk]
        subst hk
        have hbv : benignProp v = true := by simpa using hb.1
        by_cases hc : dI = true ∧ jsTruthy v = true
        · rw [if_pos hc]
          cases hg : collectRefs own used v with
          | error e =>
              have hok := collectRefs_okB hbv own used
              rw [hg] at hok
              cases hok
          | ok u2 => exact collectRefsWalk_okB hb.2 own dI dP u2
        · rw [if_neg hc]
          exact collectRefsWalk_okB hb.2 own dI dP used
      · rw [if_neg hk]
        by_cases hk2 : k = "properties"
        · rw [if_pos hk2]
          subst hk2
          have hbv : benignPropsVal v = true := by simpa using hb.1
          by_cases hc : dP = true ∧ jsTruthy v = true
          · rw [if_pos hc]
            cases hg : collectRefsProps own used v with
            | error e =>
                have hok := collectRefsProps_okB hbv own used
                rw [hg] at hok
                cases hok
            | ok u2 => exact collectRefsWalk_okB hb.2 own dI dP u2
          · rw [if_neg hc]
            exact collectRefsWalk_okB hb.2 own dI dP used
        · rw [if_neg hk2]
          exact collectRefsWalk_okB hb.2 own dI dP used

theorem collectRefsProps_okB {v : Js} (hb : benignPropsVal v = true) (own : String)
    (used : List String) : (collectRefsProps own used v).isOk = true := by
  match v with
  | .obj pf =>
      rw [benignPropsVal] at hb
      rw [collectRefsProps]
      exact collectRefsPairs_okB hb own used
  | .arr xs => simp [benignPropsVal, jsTruthy] at hb
  | .null => rfl
  | .bool b => rfl
  | .num n => rfl
  | .str s => rfl

theorem collectRefsPairs_okB {l : List (String × Js)} (hb : benignVals l = true)
    (own : String) (used : List String) : (collectRefsPairs own used l).isOk = true := by
  match l with
  | [] => rfl
  | (k, v) :: rest =>
      rw [benignVals, Bool.and_eq_true] at hb
      rw [collectRefsPairs]
      cases hg : collectRefs own used v with
      | error e =>
          have hok := collectRefs_okB hb.1 own used
          rw [hg] at hok
          cases hok
      | ok u => exact collectRefsPairs_okB hb.2 own u
end

theorem partRequired_ok {fields : List (String × Js)} (hb : reqOkF fields = true)
    (req : List Js) : (partRequired req fields).isOk = true := by
  unfold partRequired
  unfold reqOkF at hb
  cases hl : lookupField fields "required" with
  | none => simp only [hl]; rfl
  | some rv =>
      simp only [hl]
      simp only [hl] at hb
      split
      · next ht =>
          rw [ht] at hb
          simp only [Bool.not_true, Bool.false_or] at hb
          cases rv with
          | arr xs => rfl
          | null => simp [Js.isArr] at hb
          | bool b => simp [Js.isArr] at hb
          | num n => simp [Js.isArr] at hb
          | str s => simp [Js.isArr] at hb
          | obj fs => simp [Js.isArr] at hb
      · rfl

theorem requiredSeed_ok {fields : List (String × Js)} (hb : reqOkF fields = true) :
    (requiredSeed fields).isOk = true := by
  unfold requiredSeed
  unfold reqOkF at hb
  cases hl : lookupField fields "required" with
  | none => simp only [hl]; rfl
  | some rv =>
      simp only [hl]
      simp only [hl] at hb
      split
      · next ht =>
          rw [ht] at hb
          simp only [Bool.not_true, Bool.false_or] at hb
          cases rv with
          | arr xs => rfl
          | null => simp [Js.isArr] at hb
          | bool b => simp [Js.isArr] at hb
          | num n => simp [Js.isArr] at hb
          | str s => simp [Js.isArr] at hb
          | obj fs => simp [Js.isArr] at hb
      · rfl

theorem allOfInline_ok {st : DtoSt} {pfields : List (String × Js)}
    (hb : reqOkF pfields = true) : (allOfInline st pfields).isOk = true := by
  unfold allOfInline
  split
  · cases hl : lookupField pfields "properties" with
    | none => simp only [hl]; rfl
    | some pv =>
        simp only [hl]
        split
        · cases hq : partRequired st.req pfields with
          | error e =>
              have hok := partRequired_ok hb st.req
              rw [hq] at hok
              cases hok
          | ok req2 => simp [hq, Except.isOk, Except.toBool]
        · rfl
  · rfl

theorem allOfStep_ok {st : DtoSt} {p : Js} (hb : benignPart p = true) :
    (allOfStep st p).isOk = true := by
  unfold allOfStep
  cases p with
  | null => simp [benignPart] at hb
  | obj pf =>
      rw [benignPart, Bool.and_eq_true, Bool.and_eq_true] at hb
      simp only [Js.isNull, Bool.false_eq_true, if_false, jsFields]
      cases hl : lookupField pf "$ref" with
      | none => simp only [hl]; exact allOfInline_ok hb.1.2
      | some rv =>
          simp only [hl]
          split
          · next ht =>
              have hbr := hb.1.1
              unfold refOkF at hbr
              simp only [hl] at hbr
              rw [ht] at hbr
              simp only [Bool.not_true, Bool.false_or] at hbr
              cases rv with
              | str rs => split <;> first | rfl | (split <;> rfl)
              | null => simp [Js.isStr] at hbr
              | bool b => simp [Js.isStr] at hbr
              | num n => simp [Js.isStr] at hbr
              | arr xs => simp [Js.isStr] at hbr
              | obj fs => simp [Js.isStr] at hbr
          · exact allOfInline_ok hb.1.2
  | bool b =>
      simp only [Js.isNull, Bool.false_eq_true, if_false]
      exact allOfInline_ok (by rfl)
  | num n =>
      simp only [Js.isNull, Bool.false_eq_true, if_false]
      exact allOfInline_ok (by rfl)
  | str s =>
      simp only [Js.isNull, Bool.false_eq_true, if_false]
      exact allOfInline_ok (by rfl)
  | arr xs =>
      simp only [Js.isNull, Bool.false_eq_true, if_false]
      exact allOfInline_ok (by rfl)

theorem allOfLoop_ok {parts : List Js} (hb : ∀ p ∈ parts, benignPart p = true)
    (st : DtoSt) : (allOfLoop st parts).isOk = true := by
  induction parts generalizing st with
  | nil => rfl
  | cons p rest ih =>
      rw [allOfLoop]
      cases hs : allOfStep st p with
      | error e =>
          have hok := @allOfStep_ok st p (hb p (List.mem_cons_self p rest))
          rw [hs] at hok
          cases hok
      | ok st2 => exact ih (fun q hq => hb q (List.mem_cons_of_mem p hq)) st2

theorem elseBranchSt_ok {fields : List (String × Js)} {req0 : List Js}
    (hb : reqOkF fields = true) : (elseBranchSt fields req0).isOk = true := by
  unfold elseBranchSt
  cases hq : partRequired req0 fields with
  | error e =>
      have hok := partRequired_ok hb req0
      rw [hq] at hok
      cases hok
  | ok req => simp [hq, Except.isOk, Except.toBool]

theorem mem_inlineAssignFold {init : List (String × Js)} {parts : List Js} {kv : String × Js}
    (h : kv ∈ inlineAssignFold init parts) :
    kv ∈ init ∨ ∃ p ∈ parts, kv ∈ partProps p := by
  induction parts generalizing init with
  | nil => exact Or.inl h
  | cons p rest ih =>
      have h2 : kv ∈ inlineAssignFold (objAssign init (partProps p)) rest := h
      rcases ih h2 with h3 | h3
      · rcases mem_objAssign h3 with h4 | h4
        · exact Or.inl h4
        · exact Or.inr ⟨p, List.mem_cons_self p rest, h4⟩
      · rcases h3 with ⟨q, hq, hkv⟩
        exact Or.inr ⟨q, List.mem_cons_of_mem p hq, hkv⟩

/-- Benign values survive enumeration of a truthy benign `properties` value. -/
theorem ownEnumerableFields_benign {pv : Js} {kv : String × Js}
    (hb : benignPropsVal pv = true) (ht : jsTruthy pv = true)
    (h : kv ∈ ownEnumerableFields pv) : benignProp kv.2 = true := by
  cases pv with
  | obj inner =>
      rw [benignPropsVal] at hb
      exact (benignVals_iff.mp hb) kv (by simpa [ownEnumerableFields] using h)
  | arr xs => simp [benignPropsVal, jsTruthy] at hb
  | str s =>
      simp only [ownEnumerableFields, List.mem_map] at h
      obtain ⟨q, _, hq⟩ := h
      rw [← hq]
      rfl
  | null => simp [jsTruthy] at ht
  | bool b => simp [ownEnumerableFields] at h
  | num n => simp [ownEnumerableFields] at h

theorem partProps_benign {p : Js} {kv : String × Js} (hb : benignPart p = true)
    (h : kv ∈ partProps p) : benignProp kv.2 = true := by
  cases p with
  | null => simp [benignPart] at hb
  | obj pf =>
      rw [benignPart, Bool.and_eq_true, Bool.and_eq_true] at hb
      unfold partProps pfInlineProps at h
      simp only [jsFields] at h
      split at h
      · split at h
        · next hinl =>
            cases hl : lookupField pf "properties" with
            | none => simp only [hl] at h; cases h
            | some pv =>
                simp only [hl] at h
                have hpv : benignPropsVal pv = true := by
                  have hpo := hb.2
                  unfold propsOkF at hpo
                  simpa only [hl] using hpo
                have htr : jsTruthy pv = true := by
                  unfold pfIsInline at hinl
                  simp only [Bool.and_eq_true] at hinl
                  have h2 := hinl.2
                  simpa only [hl] using h2
                exact ownEnumerableFields_benign hpv htr h
        · cases h
      · cases h
  | bool b =>
      simp only [show partProps (Js.bool b) = [] from rfl] at h
      cases h
  | num n =>
      simp only [show partProps (Js.num n) = [] from rfl] at h
      cases h
  | str s =>
      simp only [show partProps (Js.str s) = [] from rfl] at h
      cases h
  | arr xs =>
      simp only [show partProps (Js.arr xs) = [] from rfl] at h
      cases h

theorem elseBranchSt_props {fields : List (String × Js)} {req0 : List Js} {st : DtoSt}
    (h : elseBranchSt fields req0 = .ok st) :
    st.props = (match lookupField fields "properties" with
                | some pv => if jsTruthy pv then ownEnumerableFields pv else []
                | none => []) := by
  unfold elseBranchSt at h
  cases hq : partRequired req0 fields with
  | error e => simp only [hq] at h; cases h
  | ok req => simp only [hq] at h; cases h; rfl

theorem elseBranchSt_props_benign {fields : List (String × Js)} {req0 : List Js} {st : DtoSt}
    (hb : propsOkF fields = true) (h : elseBranchSt fields req0 = .ok st) :
    ∀ kv ∈ st.props, benignProp kv.2 = true := by
  intro kv hkv
  rw [elseBranchSt_props h] at hkv
  cases hl : lookupField fields "properties" with
  | none => simp only [hl] at hkv; cases hkv
  | some pv =>
      simp only [hl] at hkv
      split at hkv
      · next ht =>
          have hpv : benignPropsVal pv = true := by
            unfold propsOkF at hb
            simpa only [hl] using hb
          exact ownEnumerableFields_benign hpv ht hkv
      · cases hkv

theorem dtoStateNoCollect_benign {schema : Js} {st0 : DtoSt}
    (hb : benignSchema schema = true) (h : dtoStateNoCollect schema = .ok st0) :
    ∀ kv ∈ st0.props, benignProp kv.2 = true := by
  cases schema with
  | null => simp [benignSchema] at hb
  | obj fs =>
      rw [benignSchema, Bool.and_eq_true, Bool.and_eq_true, Bool.and_eq_true] at hb
      unfold dtoStateNoCollect at h
      simp only [jsFields] at h
      cases hr : requiredSeed fs with
      | error e => simp only [hr] at h; cases h
      | ok req0 =>
          simp only [hr] at h
          cases ha : lookupField fs "allOf" with
          | none =>
              simp only [ha] at h
              exact elseBranchSt_props_benign hb.2 h
          | some av =>
              simp only [ha] at h
              split at h
              · next ht =>
                  have hao : allOfOkF fs = true := hb.1.2
                  unfold allOfOkF at hao
                  simp only [ha] at hao
                  cases av with
                  | arr ps =>
                      simp only [dtoPartsOf] at h
                      intro kv hkv
                      have hprops := (allOfLoop_spec h).2.2.1
                      rw [hprops] at hkv
                      rcases mem_inlineAssignFold hkv with h1 | ⟨p, hp, hkp⟩
                      · cases h1
                      · have hbp : benignPart p = true := by
                          have := List.all_eq_true.mp hao p hp
                          simpa using this
                        exact partProps_benign hbp hkp
                  | null => simp [jsTruthy] at ht
                  | bool b => simp [ht] at hao
                  | num n => simp [ht] at hao
                  | str s => simp [ht] at hao
                  | obj inner => simp [ht] at hao
              · exact elseBranchSt_props_benign hb.2 h
  | bool b =>
      simp only [show dtoStateNoCollect (Js.bool b) = .ok ⟨[], [], [], []⟩ from rfl] at h
      cases h
      intro kv hkv
      cases hkv
  | num n =>
      simp only [show dtoStateNoCollect (Js.num n) = .ok ⟨[], [], [], []⟩ from rfl] at h
      cases h
      intro kv hkv
      cases hkv
  | str s =>
      simp only [show dtoStateNoCollect (Js.str s) = .ok ⟨[], [], [], []⟩ from rfl] at h
      cases h
      intro kv hkv
      cases hkv
  | arr xs =>
      simp only [show dtoStateNoCollect (Js.arr xs) = .ok ⟨[], [], [], []⟩ from rfl] at h
      cases h
      intro kv hkv
      cases hkv

theorem dtoStateNoCollect_ok {schema : Js} (hb : benignSchema schema = true) :
    (dtoStateNoCollect schema).isOk = true := by
  cases schema with
  | null => simp [benignSchema] at hb
  | bool b => rfl
  | num n => rfl
  | str s => rfl
  | arr xs => rfl
  | obj fs =>
      rw [benignSchema, Bool.and_eq_true, Bool.and_eq_true, Bool.and_eq_true] at hb
      unfold dtoStateNoCollect
      simp only [jsFields]
      cases hr : requiredSeed fs with
      | error e =>
          have hok := requiredSeed_ok hb.1.1.2
          rw [hr] at hok
          cases hok
      | ok req0 =>
          simp only [hr]
          cases ha : lookupField fs "allOf" with
          | none => exact elseBranchSt_ok hb.1.1.2
          | some av =>
              simp only [ha]
              split
              · next ht =>
                  have hao : allOfOkF fs = true := hb.1.2
                  unfold allOfOkF at hao
                  simp only [ha] at hao
                  cases av with
                  | arr ps =>
                      simp only [dtoPartsOf]
                      exact allOfLoop_ok (fun p hp => by
                        have := List.all_eq_true.mp hao p hp
                        simpa using this) _
                  | null => simp [jsTruthy] at ht
                  | bool b => simp [ht] at hao
                  | num n => simp [ht] at hao
                  | str s => simp [ht] at hao
                  | obj inner => simp [ht] at hao
              · exact elseBranchSt_ok hb.1.1.2

theorem dtoState_ok {name : String} {schema : Js} (hb : benignSchema schema = true) :
    (dtoState name schema).isOk = true := by
  unfold dtoState
  cases hnc : dtoStateNoCollect schema with
  | error e =>
      have hok := dtoStateNoCollect_ok hb
      rw [hnc] at hok
      cases hok
  | ok st0 =>
      simp only [hnc]
      have hbv : benignVals st0.props = true :=
        benignVals_iff.mpr (dtoStateNoCollect_benign hb hnc)
      cases hc : collectRefsPairs name st0.used st0.props with
      | error e =>
          have hok := collectRefsPairs_okB hbv name st0.used
          rw [hc] at hok
          cases hok
      | ok used2 => simp [hc, Except.isOk, Except.toBool]

theorem dtoState_props_benign {name : String} {schema : Js} {st : DtoSt}
    (hb : benignSchema schema = true) (h : dtoState name schema = .ok st) :
    ∀ kv ∈ st.props, benignProp kv.2 = true := by
  unfold dtoState at h
  cases hnc : dtoStateNoCollect schema with
  | error e => simp only [hnc] at h; cases h
  | ok st0 =>
      simp only [hnc] at h
      cases hc : collectRefsPairs name st0.used st0.props with
      | error e => simp only [hc] at h; cases h
      | ok used2 =>
          simp only [hc] at h
          injection h with h2
          intro kv hkv
          rw [← h2] at hkv
          exact dtoStateNoCollect_benign hb hnc kv hkv

theorem bodyLines_ok {allS : List (String × Js)} {req : List Js} {l : List (String × Js)}
    (hb : ∀ kv ∈ l, benignProp kv.2 = true) : (bodyLines allS req l).isOk = true := by
  induction l with
  | nil => rfl
  | cons hd tl ih =>
      rw [bodyLines]
      cases hg : getTypeScriptType hd.2 allS with
      | error e =>
          have hok := getTypeScriptType_ok (hb hd (List.mem_cons_self hd tl)) allS
          rw [hg] at hok
          cases hok
      | ok t =>
          cases hbl : bodyLines allS req tl with
          | error e =>
              have hok := ih (fun kv hkv => hb kv (List.mem_cons_of_mem hd hkv))
              rw [hbl] at hok
              cases hok
          | ok r => simp [hg, hbl, Except.isOk, Except.toBool]

theorem generateDTOBody_ok {name : String} {schema : Js} {allS : List (String × Js)}
    (hb : benignSchema schema = true) : (generateDTOBody name schema allS).isOk = true := by
  unfold generateDTOBody
  cases hs : dtoState name schema with
  | error e =>
      have hok := @dtoState_ok name schema hb
      rw [hs] at hok
      cases hok
  | ok st =>
      simp only [hs]
      cases hbl : bodyLines allS st.req st.props with
      | error e =>
          have hok := @bodyLines_ok allS st.req st.props (dtoState_props_benign hb hs)
          rw [hbl] at hok
          cases hok
      | ok body => simp [hbl, Except.isOk, Except.toBool]

theorem generateDTOType_ok {name : String} {schema : Js} {allS : List (String × Js)}
    (hb : benignSchema schema = true) : (generateDTOType name schema allS).isOk = true := by
  cases schema with
  | null => simp [benignSchema] at hb
  | bool b => exact @generateDTOBody_ok name (Js.bool b) allS hb
  | num n => exact @generateDTOBody_ok name (Js.num n) allS hb
  | str s => exact @generateDTOBody_ok name (Js.str s) allS hb
  | arr xs => exact @generateDTOBody_ok name (Js.arr xs) allS hb
  | obj fs =>
      unfold generateDTOType
      simp only [Js.isNull, Bool.false_eq_true, if_false, jsFields]
      cases hl : lookupField fs "enum" with
      | none => exact generateDTOBody_ok hb
      | some ev =>
          simp only [hl]
          split
          · next ht =>
              have heo : enumOkF fs = true := by
                rw [benignSchema, Bool.and_eq_true, Bool.and_eq_true, Bool.and_eq_true] at hb
                exact hb.1.1.1
              unfold enumOkF at heo
              simp only [hl] at heo
              rw [ht] at heo
              simp only [Bool.not_true, Bool.false_or] at heo
              cases ev with
              | arr vs => rfl
              | null => simp [Js.isArr] at heo
              | bool b => simp [Js.isArr] at heo
              | num n => simp [Js.isArr] at heo
              | str s => simp [Js.isArr] at heo
              | obj fs2 => simp [Js.isArr] at heo
          · exact generateDTOBody_ok hb

theorem generateDTOsAux_spec {all : List (String × Js)} {pend : List (String × Js)}
    (written : List (String × String)) (exps : List String)
    (hb : ∀ kv ∈ pend, benignSchema kv.2 = true) :
    (generateDTOsAux all pend written exps).2 = true ∧
    (generateDTOsAux all pend written exps).1.length = written.length + pend.length + 1 := by
  induction pend generalizing written exps with
  | nil => simp [generateDTOsAux]
  | cons hd tl ih =>
      obtain ⟨n, s⟩ := hd
      rw [generateDTOsAux]
      cases hg : generateDTOType n s all with
      | error e =>
          have hok := @generateDTOType_ok n s all
            (hb (n, s) (List.mem_cons_self (n, s) tl))
          rw [hg] at hok
          cases hok
      | ok content =>
          have := ih (written ++ [(n ++ ".ts", content)]) (exps ++ [dtoExportLine n])
            (fun kv hkv => hb kv (List.mem_cons_of_mem (n, s) hkv))
          refine ⟨this.1, ?_⟩
          rw [this.2]
          simp [List.length_append]
          omega

/-! ## Path templates as literal/token segment lists -/

/-- A path template segment: a literal chunk, or a brace-wrapped token. -/
inductive Seg where
  | lit (s : String)
  | tok (s : String)
deriving Repr

def segsChars : List Seg → List Char
  | [] => []
  | .lit s :: rest => s.data ++ segsChars rest
  | .tok s :: rest => '\x7b' :: (s.data ++ ('\x7d' :: segsChars rest))

/-- The rendered path template of a segment list. -/
def mkPath (segs : List Seg) : String := String.mk (segsChars segs)

/-- The tokens of a segment list, in order, duplicates preserved. -/
def tokensOf : List Seg → List String
  | [] => []
  | .lit _ :: rest => tokensOf rest
  | .tok s :: rest => s :: tokensOf rest

/-- The characters after replacing every token segment by `By`. -/
def replacedChars : List Seg → List Char
  | [] => []
  | .lit s :: rest => s.data ++ replacedChars rest
  | .tok _ :: rest => 'B' :: ('y' :: replacedChars rest)

def noChar (c : Char) (s : String) : Bool := s.data.all fun d => d != c

/-- Well-formedness of one segment: literals contain no opening brace, tokens
are nonempty and contain no brace. -/
def wfSeg : Seg → Bool
  | .lit s => noChar '\x7b' s
  | .tok s => !s.data.isEmpty && noChar '\x7b' s && noChar '\x7d' s

theorem noChar_forall {c : Char} {s : String} (h : noChar c s = true) :
    ∀ d ∈ s.data, d ≠ c := by
  intro d hd
  have := List.all_eq_true.mp h d hd
  simpa using this

theorem extractPathAux_lit {s : List Char} (r : List Char)
    (hs : ∀ d ∈ s, d ≠ '\x7b') :
    extractPathAux (s ++ r) none = extractPathAux r none := by
  induction s with
  | nil => rfl
  | cons c cs ih =>
      rw [List.cons_append, extractPathAux]
      rw [if_neg (hs c (List.mem_cons_self c cs))]
      exact ih (fun d hd => hs d (List.mem_cons_of_mem c hd))

theorem extractPathAux_tok {t : List Char} (acc r : List Char)
    (ht : ∀ d ∈ t, d ≠ '\x7d') (hne : t = [] → acc ≠ []) :
    extractPathAux (t ++ '\x7d' :: r) (some acc)
      = String.mk (acc.reverse ++ t) :: extractPathAux r none := by
  induction t generalizing acc with
  | nil =>
      rw [List.nil_append, extractPathAux, if_pos rfl]
      rw [if_neg (by simpa using hne rfl)]
      simp
  | cons c cs ih =>
      rw [List.cons_append, extractPathAux]
      rw [if_neg (ht c (List.mem_cons_self c cs))]
      rw [ih (c :: acc) (fun d hd => ht d (List.mem_cons_of_mem c hd)) (fun _ => by simp)]
      simp

theorem extractPathAux_mkPath {segs : List Seg} (hwf : ∀ g ∈ segs, wfSeg g = true) :
    extractPathAux (segsChars segs) none = tokensOf segs := by
  induction segs with
  | nil => rfl
  | cons g rest ih =>
      cases g with
      | lit s =>
          rw [segsChars, tokensOf]
          rw [extractPathAux_lit _ (noChar_forall (by
            simpa [wfSeg] using hwf (Seg.lit s) (List.mem_cons_self _ rest)))]
          exact ih (fun q hq => hwf q (List.mem_cons_of_mem _ hq))
      | tok s =>
          have hw := hwf (Seg.tok s) (List.mem_cons_self _ rest)
          simp only [wfSeg, Bool.and_eq_true] at hw
          rw [segsChars, tokensOf]
          rw [extractPathAux, if_pos rfl]
          rw [extractPathAux_tok [] (segsChars rest) (noChar_forall hw.2)
            (fun hs2 => absurd (by simpa using hw.1.1) (by simp [hs2]))]
          rw [ih (fun q hq => hwf q (List.mem_cons_of_mem _ hq))]
          simp

theorem replaceBracesAux_lit {s : List Char} (r : List Char)
    (hs : ∀ d ∈ s, d ≠ '\x7b') :
    replaceBracesAux (s ++ r) none = s ++ replaceBracesAux r none := by
  induction s with
  | nil => rfl
  | cons c cs ih =>
      rw [List.cons_append, replaceBracesAux]
      rw [if_neg (hs c (List.mem_cons_self c cs))]
      rw [ih (fun d hd => hs d (List.mem_cons_of_mem c hd))]
      rfl

theorem replaceBracesAux_tok {t : List Char} (acc r : List Char)
    (ht : ∀ d ∈ t, d ≠ '\x7d') (hne : t = [] → acc ≠ []) :
    replaceBracesAux (t ++ '\x7d' :: r) (some acc)
      = 'B' :: ('y' :: replaceBracesAux r none) := by
  induction t generalizing acc with
  | nil =>
      rw [List.nil_append, replaceBracesAux, if_pos rfl]
      rw [if_neg (by simpa using hne rfl)]
  | cons c cs ih =>
      rw [List.cons_append, replaceBracesAux]
      rw [if_neg (ht c (List.mem_cons_self c cs))]
      exact ih (c :: acc) (fun d hd => ht d (List.mem_cons_of_mem c hd)) (fun _ => by simp)

theorem replaceBracesAux_mkPath {segs : List Seg} (hwf : ∀ g ∈ segs, wfSeg g = true) :
    replaceBracesAux (segsChars segs) none = replacedChars segs := by
  induction segs with
  | nil => rfl
  | cons g rest ih =>
      cases g with
      | lit s =>
          rw [segsChars, replacedChars]
          rw [replaceBracesAux_lit _ (noChar_forall (by
            simpa [wfSeg] using hwf (Seg.lit s) (List.mem_cons_self _ rest)))]
          rw [ih (fun q hq => hwf q (List.mem_cons_of_mem _ hq))]
      | tok s =>
          have hw := hwf (Seg.tok s) (List.mem_cons_self _ rest)
          simp only [wfSeg, Bool.and_eq_true] at hw
          rw [segsChars, replacedChars]
          rw [replaceBracesAux, if_pos rfl]
          rw [replaceBracesAux_tok [] (segsChars rest) (noChar_forall hw.2)
            (fun hs2 => absurd (by simpa using hw.1.1) (by simp [hs2]))]
          rw [ih (fun q hq => hwf q (List.mem_cons_of_mem _ hq))]

theorem extractPathParameters_mkPath {segs : List Seg}
    (hwf : ∀ g ∈ segs, wfSeg g = true) :
    extractPathParameters (mkPath segs) = tokensOf segs :=
  extractPathAux_mkPath hwf

theorem generateOperationId_mkPath (method : String) {segs : List Seg}
    (hwf : ∀ g ∈ segs, wfSeg g = true) :
    generateOperationId method (mkPath segs)
      = String.mk ((replacedChars segs).filter isAsciiAlphanum) := by
  unfold generateOperationId
  rw [show (mkPath segs).data = segsChars segs from rfl]
  rw [replaceBracesAux_mkPath hwf]

theorem keys_inlineAssignFold (init : List (String × Js)) (parts : List Js) (k : String) :
    (∃ v, (k, v) ∈ inlineAssignFold init parts)
      ↔ ((∃ v, (k, v) ∈ init) ∨ ∃ p ∈ parts, ∃ v, (k, v) ∈ partProps p) := by
  induction parts generalizing init with
  | nil => simp [inlineAssignFold]
  | cons p rest ih =>
      have step : inlineAssignFold init (p :: rest)
          = inlineAssignFold (objAssign init (partProps p)) rest := rfl
      rw [step, ih, keys_objAssign]
      constructor
      · rintro ((h | h) | ⟨q, hq, hv⟩)
        · exact Or.inl h
        · exact Or.inr ⟨p, List.mem_cons_self p rest, h⟩
        · exact Or.inr ⟨q, List.mem_cons_of_mem p hq, hv⟩
      · rintro (h | ⟨q, hq, hv⟩)
        · exact Or.inl (Or.inl h)
        · rcases List.mem_cons.mp hq with rfl | hq2
          · exact Or.inl (Or.inr hv)
          · exact Or.inr ⟨q, hq2, hv⟩

/-! ## The claims -/

/-- C1 counterexample: the source extracts one parameter per `\x7btoken\x7d`
occurrence without folding duplicates, so `/a/\x7by\x7d/\x7bx\x7d/\x7by\x7d`
does not yield the folded list `(y, x)` the claim states. -/
theorem c1_counterexample :
    extractPathParameters "/a/\x7by\x7d/\x7bx\x7d/\x7by\x7d" ≠ ["y", "x"] := by
  decide

def c1segs : List Seg :=
  [Seg.lit "/a/", Seg.tok "y", Seg.lit "/", Seg.tok "x", Seg.lit "/", Seg.tok "y"]

/-- C1 (amended): for every path template, the extracted path parameter list
is every `\x7btoken\x7d` occurrence in left-to-right order with duplicates
preserved (one parameter per occurrence); in particular
`/a/\x7by\x7d/\x7bx\x7d/\x7by\x7d` yields `(y, x, y)`. -/
theorem c1_amended :
    (∀ segs : List Seg, (∀ g ∈ segs, wfSeg g = true) →
        extractPathParameters (mkPath segs) = tokensOf segs) ∧
    extractPathParameters "/a/\x7by\x7d/\x7bx\x7d/\x7by\x7d" = ["y", "x", "y"] :=
  ⟨fun _ hwf => extractPathParameters_mkPath hwf, by decide⟩

/-- C1 witness: the amended claim applied to the concrete segment list of
`/a/\x7by\x7d/\x7bx\x7d/\x7by\x7d`. -/
theorem c1_amended_witness :
    extractPathParameters (mkPath c1segs) = tokensOf c1segs :=
  c1_amended.1 c1segs (by decide)

def c2segs : List Seg := [Seg.lit "/users/", Seg.tok "id"]

/-- C2: a nonempty `operationId` is used verbatim as the operation identifier;
otherwise the identifier is derived by replacing every brace segment with `By`
and deleting every non-alphanumeric character; for `/users/\x7bid\x7d` with no
operationId and method `get` the identifier is `usersBy` and the method name
is `getUsersBy`. -/
theorem c2_operation_identifier :
    (∀ (s method pathTemplate : String), s ≠ "" →
        chosenOperationId (some s) method pathTemplate = s) ∧
    (∀ (method : String) (segs : List Seg), (∀ g ∈ segs, wfSeg g = true) →
        generateOperationId method (mkPath segs)
          = String.mk ((replacedChars segs).filter isAsciiAlphanum)) ∧
    chosenOperationId none "get" "/users/\x7bid\x7d" = "usersBy" ∧
    methodNameOf "get" "/users/\x7bid\x7d" ⟨none, none, none, []⟩ = "getUsersBy" := by
  refine ⟨?_, ?_, rfl, rfl⟩
  · intro s method path hs
    simp [chosenOperationId, hs]
  · intro method segs hwf
    exact generateOperationId_mkPath method hwf

/-- C2 witness: the verbatim case at `listUsers` and the derivation
characterization at the concrete segments of `/users/\x7bid\x7d`. -/
theorem c2_witness :
    chosenOperationId (some "listUsers") "get" "/users" = "listUsers" ∧
    generateOperationId "get" (mkPath c2segs)
      = String.mk ((replacedChars c2segs).filter isAsciiAlphanum) :=
  ⟨c2_operation_identifier.1 "listUsers" "get" "/users" (by decide),
   c2_operation_identifier.2.1 "get" c2segs (by decide)⟩

def c3bad : List (String × Js) :=
  [("Bad", .obj [("enum", .num 5)]), ("Good", .obj [("type", .str "object")])]

/-- C3 counterexample: a schema whose `enum` is not an array throws, so the
later schema `Good` and the index file of the same document are not emitted,
contradicting the claim that every other schema still completes. -/
theorem c3_counterexample :
    generateDTOs c3bad = ([], false) ∧
    "Good.ts" ∉ (generateDTOs c3bad).1.map Prod.fst := by
  refine ⟨rfl, ?_⟩
  decide

/-- C3 (amended): a malformed schema whose dynamic shape still supports the
operations the generator applies (captured by `benignSchema`: object-shaped
garbage, unknown fields, unknown type tags) degrades rather than throws, and
a document of such schemas emits every schema file plus the index; but a
schema whose shape breaks an assumed operation (null schema, non-array
`enum`, non-iterable `allOf`) throws and aborts the remaining schemas and the
index of that document. -/
theorem c3_amended :
    ∀ schemas : List (String × Js), (∀ kv ∈ schemas, benignSchema kv.2 = true) →
      (generateDTOs schemas).2 = true ∧
      (generateDTOs schemas).1.length = schemas.length + 1 := by
  intro schemas hb
  have h := @generateDTOsAux_spec schemas schemas [] [] hb
  simpa [generateDTOs] using h

def c3good : List (String × Js) :=
  [("User", .obj [("type", .str "object"),
     ("properties", .obj [("id", .obj [("type", .str "string")])]),
     ("required", .arr [.str "id"])]),
   ("Color", .obj [("enum", .arr [.str "red", .str "blue"])])]

/-- C3 witness: the amended claim applied to a concrete two-schema document. -/
theorem c3_amended_witness :
    (generateDTOs c3good).2 = true ∧
    (generateDTOs c3good).1.length = c3good.length + 1 :=
  c3_amended c3good (by decide)

def c4parts : List Js := [
  .obj [("type", .str "object"),
        ("properties", .obj [("a", .obj [("type", .str "string")])])],
  .obj [("$ref", .str "#/components/schemas/Base")]]

def c4schema : Js := .obj [("allOf", .arr c4parts), ("required", .arr [.str "a"])]

/-- C4 counterexample: in a mixed `allOf` schema whose top-level `required`
lists `a` while no inline part requires it, the generated body renders `a`
without the optional marker, contradicting the claim that required-ness comes
exactly from the union of the inline parts' own `required` lists. -/
theorem c4_counterexample :
    (dtoState "S" c4schema).map (fun st => optMarker st.req "a") = .ok "" ∧
    inlineReq c4parts = [] := by
  refine ⟨rfl, rfl⟩

/-- C4 (amended): for every `allOf` schema, the `extends` clause lists
exactly the `$ref` base names in encounter order, the body's property keys
are exactly the keys merged from the inline parts, and a body property
carries no optional marker exactly when it is in the union of the schema's
own top-level `required` list and the inline parts' own `required` lists (a
`$ref` base's required set is never merged). -/
theorem c4_amended :
    ∀ (name : String) (schema : Js) (parts : List Js) (st : DtoSt) (req0 : List Js),
      lookupField (jsFields schema) "allOf" = some (.arr parts) →
      requiredSeed (jsFields schema) = .ok req0 →
      dtoState name schema = .ok st →
      st.inh = refNamesOf parts ∧
      st.props = inlineAssignFold [] parts ∧
      (∀ k, (∃ v, (k, v) ∈ st.props) ↔ ∃ p ∈ parts, ∃ v, (k, v) ∈ partProps p) ∧
      (∀ pn, optMarker st.req pn = ""
          ↔ (reqContains req0 pn = true ∨ reqContains (inlineReq parts) pn = true)) := by
  intro name schema parts st req0 ha hr h
  obtain ⟨req0b, st0, hrb, hloop, hinh, hreq, hprops, hcol⟩ := dtoState_allOf ha h
  rw [hr] at hrb
  injection hrb with hrb
  subst hrb
  obtain ⟨l1, l2, l3, l4, l5⟩ := allOfLoop_spec hloop
  refine ⟨?_, ?_, ?_, ?_⟩
  · rw [hinh, l1]
    simp
  · rw [hprops, l3]
  · intro k
    rw [hprops, l3]
    rw [show inlineAssignFold (DtoSt.props ⟨[], req0, [], []⟩) parts
          = inlineAssignFold [] parts from rfl]
    rw [keys_inlineAssignFold]
    simp
  · intro pn
    rw [hreq, l2]
    rw [show DtoSt.req ⟨[], req0, [], []⟩ = req0 from rfl]
    unfold optMarker
    rw [reqContains_append]
    split
    · next hc => exact iff_of_true rfl ((Bool.or_eq_true _ _).mp hc)
    · next hc =>
        refine iff_of_false (by decide) ?_
        intro hor
        exact hc ((Bool.or_eq_true _ _).mpr hor)

def c4st : DtoSt :=
  ⟨[("a", .obj [("type", .str "string")])], [.str "a"], ["Base"], ["Base"]⟩

/-- C4 witness: the amended claim applied to the concrete mixed schema. -/
theorem c4_amended_witness :
    c4st.inh = refNamesOf c4parts ∧
    c4st.props = inlineAssignFold [] c4parts ∧
    (∀ k, (∃ v, (k, v) ∈ c4st.props) ↔ ∃ p ∈ c4parts, ∃ v, (k, v) ∈ partProps p) ∧
    (∀ pn, optMarker c4st.req pn = ""
        ↔ (reqContains [Js.str "a"] pn = true ∨ reqContains (inlineReq c4parts) pn = true)) :=
  c4_amended "S" c4schema c4parts c4st [Js.str "a"] rfl rfl rfl

/-- C5: for every schema, every name in the collected reference set produces
exactly one import line (duplicate references across properties are folded by
the insertion-ordered set), and without an `allOf` a reference to the
schema's own name never enters the set, so no self-import line is produced. -/
theorem c5_unique_imports :
    ∀ (name : String) (schema : Js) (st : DtoSt),
      dtoState name schema = .ok st →
      (∀ n ∈ st.used, (st.used.map importLine).count (importLine n) = 1) ∧
      (jsTruthyOpt (lookupField (jsFields schema) "allOf") = false → name ∉ st.used) := by
  intro name schema st h
  constructor
  · intro n hn
    have hnd : st.used.Nodup := dtoState_used_nodup h
    have hmap : (st.used.map importLine).Nodup := hnd.map importLine_inj
    exact List.count_eq_one_of_mem hmap (List.mem_map_of_mem importLine hn)
  · intro hna
    exact dtoState_noAllOf_self hna h

def c5schema : Js := .obj [
  ("type", .str "object"),
  ("properties", .obj [
    ("p1", .obj [("$ref", .str "#/components/schemas/Pet")]),
    ("p2", .obj [("type", .str "array"),
                 ("items", .obj [("$ref", .str "#/components/schemas/Pet")])])])]

def c5st : DtoSt :=
  ⟨[("p1", .obj [("$ref", .str "#/components/schemas/Pet")]),
    ("p2", .obj [("type", .str "array"),
                 ("items", .obj [("$ref", .str "#/components/schemas/Pet")])])],
   [], [], ["Pet"]⟩

/-- C5 witness: a schema referencing `Pet` from two properties produces
exactly one `Pet` import line and no self-import. -/
theorem c5_witness :
    (c5st.used.map importLine).count (importLine "Pet") = 1 ∧ "Owner" ∉ c5st.used :=
  ⟨(c5_unique_imports "Owner" c5schema c5st rfl).1 "Pet" (by decide),
   (c5_unique_imports "Owner" c5schema c5st rfl).2 rfl⟩

/-- C6 counterexample: a `null` enum literal is rendered by the join as the
empty string, not verbatim as `null`. -/
theorem c6_counterexample :
    generateDTOType "E" (.obj [("enum", .arr [Js.null])]) [] = .ok "export type E = ;\n" ∧
    ("export type E = ;\n" : String) ≠ "export type E = null;\n" := by
  refine ⟨rfl, by decide⟩

/-- C6 (amended): for every schema with an array `enum`, the emitted file is
exactly one type alias whose right-hand side joins the literals in declared
order, strings single-quoted, numbers and booleans rendered verbatim, and
`null` rendered as the empty string; the file contains nothing else (in
particular no import lines). -/
theorem c6_amended :
    ∀ (name : String) (fields : List (String × Js)) (vs : List Js)
      (allSchemas : List (String × Js)),
      lookupField fields "enum" = some (.arr vs) →
      generateDTOType name (.obj fields) allSchemas = .ok (enumAliasLine name vs) ∧
      enumAliasLine name vs
        = "export type " ++ name ++ " = "
          ++ String.intercalate " | " (vs.map enumElemString) ++ ";\n" ∧
      (∀ s, enumElemString (.str s) = "\x27" ++ s ++ "\x27") ∧
      (∀ i : Int, enumElemString (.num i) = toString i) ∧
      (∀ b, enumElemString (.bool b) = (if b then "true" else "false")) ∧
      enumElemString .null = "" := by
  intro name fields vs allS hl
  refine ⟨?_, rfl, fun s => rfl, fun i => rfl, fun b => rfl, rfl⟩
  unfold generateDTOType
  simp only [Js.isNull, Bool.false_eq_true, if_false, jsFields, hl]
  try rfl

/-- C6 witness: the amended claim applied to a concrete mixed enum. -/
theorem c6_amended_witness :
    generateDTOType "Color" (.obj [("enum", .arr [Js.str "red", Js.num 3])]) []
      = .ok (enumAliasLine "Color" [Js.str "red", Js.num 3]) :=
  (c6_amended "Color" [("enum", .arr [Js.str "red", Js.num 3])]
    [Js.str "red", Js.num 3] [] rfl).1

/-- C7: generation is a pure function of the parsed document — the embedding
has no other inputs, every iteration order is the input order — so running
DTO and client generation twice on the same document yields byte-identical
output. -/
theorem c7_deterministic :
    ∀ (fileName className : String) (doc : Document),
      generateRun fileName className doc = generateRun fileName className doc :=
  fun _ _ _ => rfl

def c8op : Operation := ⟨none, none, none, []⟩

/-- C8 counterexample: the filter lowercases the method key first, so the key
`GET` (not in the claimed lowercase set) still generates a method, and that
method's name begins with `GET`, not with a lowercase keyword. -/
theorem c8_counterexample :
    (genForPair "/users" "GET" c8op).isSome = true ∧
    "GET" ∉ (["get", "post", "put", "delete", "patch"] : List String) ∧
    methodNameOf "GET" "/users" c8op = "GETUsers" := by
  refine ⟨rfl, by decide, rfl⟩

/-- C8 (amended): a client method is generated exactly when the lowercased
method key is one of get/post/put/delete/patch, and every generated method's
name begins with the method key as written, followed by the Pascal-cased
operation identifier. -/
theorem c8_amended :
    ∀ (pathTemplate method : String) (op : Operation),
      ((genForPair pathTemplate method op).isSome = true ↔
        asciiLower method ∈ (["get", "post", "put", "delete", "patch"] : List String)) ∧
      (methodNameOf method pathTemplate op).data
        = method.data ++ (pascalCase (chosenOperationId op.operationId method pathTemplate)).data := by
  intro path method op
  constructor
  · unfold genForPair methodAllowed
    split
    · next hall =>
        exact iff_of_true rfl (by simpa using hall)
    · next hall =>
        refine iff_of_false ?_ ?_
        · simp
        · intro hmem
          exact hall (by simpa using hmem)
  · exact String.data_append method _

/-- C9: an `operationId` equal to the empty string is falsy, so the generator
falls back to the derived path-based identifier rather than using the empty
string verbatim. -/
theorem c9_empty_operation_id :
    ∀ (method pathTemplate : String) (summary description : Option String)
      (parameters : List (String × String)),
      chosenOperationId (some "") method pathTemplate
        = generateOperationId method pathTemplate ∧
      methodNameOf method pathTemplate ⟨some "", summary, description, parameters⟩
        = method ++ pascalCase (generateOperationId method pathTemplate) :=
  fun _ _ _ _ _ => ⟨rfl, rfl⟩

/-- C10: when an `allOf` part's `$ref` final segment equals the schema's own
name, the self-reference exclusion (which applies only to refs reached
through properties and items) does not apply: the schema extends itself and
imports its own name from its own file. -/
theorem c10_self_allof :
    ∀ (name : String) (schema : Js) (parts : List Js) (st : DtoSt),
      lookupField (jsFields schema) "allOf" = some (.arr parts) →
      name ∈ refNamesOf parts →
      dtoState name schema = .ok st →
      name ∈ st.inh ∧ name ∈ st.used ∧ importLine name ∈ st.used.map importLine := by
  intro name schema parts st ha hmem h
  obtain ⟨req0, st0, hr, hloop, hinh, hreq, hprops, hcol⟩ := dtoState_allOf ha h
  obtain ⟨l1, l2, l3, l4, l5⟩ := allOfLoop_spec hloop
  have hu0 : name ∈ st0.used := (l4 name).mpr (Or.inr hmem)
  have hu : name ∈ st.used := collectRefsPairs_sub hcol hu0
  refine ⟨?_, hu, List.mem_map_of_mem importLine hu⟩
  rw [hinh, l1]
  simpa using hmem

def c10parts : List Js := [.obj [("$ref", .str "#/components/schemas/Me")]]

def c10schema : Js := .obj [("allOf", .arr c10parts)]

def c10st : DtoSt := ⟨[], [], ["Me"], ["Me"]⟩

/-- C10 witness: the concrete self-extending schema `Me`. -/
theorem c10_self_allof_witness :
    "Me" ∈ c10st.inh ∧ "Me" ∈ c10st.used ∧ importLine "Me" ∈ c10st.used.map importLine :=
  c10_self_allof "Me" c10schema c10parts c10st rfl (by decide) rfl

end OpenApiGen
